import Mathlib

/-!
# Verification of the A* sliding-tile puzzle solver (`solver.py`)

This file gives a shallow embedding of the solver: the packed board codec,
the heuristic with its row-conflict scan, the solvability parity test, the
four move generators, the CPython `heapq` priority queue it relies on, and
the A* search loop with path reconstruction.  All definitions are written
to mirror the Python source; loops become structural recursion (with an
explicit fuel argument where Python iterates unboundedly) so that every
definition evaluates inside the kernel.

Notation used in comments: `w`, `h` are the board width and height,
`n = w*h`, `bl` the per-cell bit width.
-/

namespace TilePuzzle

/-- Python `range(a, b)` as a list: `[a, a+1, ..., b-1]` (empty when `b ≤ a`). -/
def pyRange (a b : Nat) : List Nat := (List.range (b - a)).map (a + ·)

/-- `|a - b|` on naturals, as Python's `abs(i - j)` on (unbounded) ints. -/
def absDiff (a b : Nat) : Nat := ((a : Int) - (b : Int)).natAbs

/-- Number of binary digits of `n`: `0` for `0`, else `⌊log2 n⌋ + 1`.
The first argument is structural fuel (`n` itself suffices). -/
def bitsAux : Nat → Nat → Nat
  | 0, _ => 0
  | fuel + 1, n => if n = 0 then 0 else bitsAux fuel (n / 2) + 1

/-- `ceil(log2 n)` for `n ≥ 1`, as the source computes
`bit_length = ceil(log2(width*height))`: the number of bits of `n - 1`.
(`math.ceil(math.log2(n))` agrees with this for every board size that is
exactly representable in floating point.) -/
def clog2 (n : Nat) : Nat := bitsAux (n - 1) (n - 1)

/-- `State.tile_at`: extract the cell at row-major `index` from the packed
board: `(board & ((2^bl - 1) << (bl*index))) >> (bl*index)`. -/
def tileAt (bl board index : Nat) : Nat :=
  (board &&& (((1 <<< bl) - 1) <<< (bl * index))) >>> (bl * index)

/-- The inner row-conflict scan of `State.__init__` for the cell at
`(i, j)`: Python `for k in range(i+1, j)`, adding `2` whenever the scanned
tile is non-zero, `tile // width == i` and `tile % width <= j`.
(The running `+= 2` accumulator is written as a sum.) -/
def conflictScan (bl w board i j : Nat) : Nat :=
  ((pyRange (i + 1) j).map (fun k =>
    let tile := tileAt bl board (i * w + k)
    if tile ≠ 0 ∧ tile / w = i ∧ tile % w ≤ j then 2 else 0)).sum

/-- Contribution of the cell at `(i, j)` to `State.__init__`'s running
`heuristic_value`: the conflict penalties detected at this cell plus this
cell's Manhattan distance `|i - dest_i| + |j - dest_j|`. -/
def cellH (bl w h board i j : Nat) : Nat :=
  let val := tileAt bl board (i * w + j)
  if val = 0 then
    absDiff i (h - 1) + absDiff j (w - 1)
  else
    let dest_i := (val - 1) / w
    let dest_j := (val - 1) % w
    (if i = dest_i ∧ j < dest_j then conflictScan bl w board i j else 0) +
      absDiff i dest_i + absDiff j dest_j

/-- The heuristic computed in `State.__init__`: the double loop over all
cells, written as a sum of per-cell contributions (Nat addition is
associative/commutative, so this equals the source's single accumulator). -/
def heuristicValue (bl w h board : Nat) : Nat :=
  ((List.range h).map (fun i =>
    ((List.range w).map (fun j => cellH bl w h board i j)).sum)).sum

/-- A search node, mirroring `class State`.  The `src` back-link holds the
predecessor's packed board together with the move label; the source stores
the predecessor `State` object, but every use of that object (dict lookup
via `__hash__`/`__eq__`, and `_reconstruct`) depends only on its packed
board, so the embedding records exactly that. -/
structure State where
  bit_length : Nat
  width : Nat
  height : Nat
  board : Nat
  zero_index : Nat
  cost : Nat
  heuristic_value : Nat
  src : Option (Nat × Char)
deriving Repr, DecidableEq

/-- `State.__init__`: store the fields and compute `heuristic_value`. -/
def State.new (bl w h board zero_index cost : Nat) (src : Option (Nat × Char)) : State :=
  ⟨bl, w, h, board, zero_index, cost, heuristicValue bl w h board, src⟩

/-- Method form of `tile_at`. -/
def State.tile_at (s : State) (index : Nat) : Nat :=
  tileAt s.bit_length s.board index

/-- `State.priority`: `g + h`, the key of the priority queue (`__lt__`). -/
def State.priority (s : State) : Nat := s.heuristic_value + s.cost

/-- The inversion count of `State.is_solvable`'s double loop: for each
position `i`, the number of later positions `j > i` with `flat[j] < flat[i]`. -/
def countInversions : List Nat → Nat
  | [] => 0
  | x :: xs => (xs.filter (fun y => y < x)).length + countInversions xs

/-- `State.is_solvable`: flatten the board, drop the entry at position
`zero_index` (Python `flat.pop(self.zero_index)`), count inversions, and
apply the width-parity rule.  `(height-1) - zero_index//width` is the
Python expression; for the in-range `zero_index` of a well-formed state it
is never negative, so Nat subtraction agrees. -/
def State.is_solvable (s : State) : Bool :=
  let flat := ((List.range (s.width * s.height)).map s.tile_at).eraseIdx s.zero_index
  let inversions := countInversions flat
  if s.width % 2 = 1 then
    inversions % 2 = 0
  else
    (inversions + ((s.height - 1) - s.zero_index / s.width)) % 2 = 0

/-- `State.up`: illegal when the blank is in the bottom row; otherwise the
tile below the blank slides up: it is cleared from slot `zero_index+width`
and written into slot `zero_index`. -/
def State.up (s : State) : Option State :=
  if s.zero_index / s.width = s.height - 1 then none
  else
    let new_zero_index := s.zero_index + s.width
    let tile := s.tile_at new_zero_index
    some (State.new s.bit_length s.width s.height
      (s.board - (tile <<< (s.bit_length * new_zero_index)) +
        (tile <<< (s.bit_length * s.zero_index)))
      new_zero_index (s.cost + 1) (some (s.board, 'U')))

/-- `State.down`: illegal when the blank is in the top row; the tile above
the blank slides down. -/
def State.down (s : State) : Option State :=
  if s.zero_index / s.width = 0 then none
  else
    let new_zero_index := s.zero_index - s.width
    let tile := s.tile_at new_zero_index
    some (State.new s.bit_length s.width s.height
      (s.board - (tile <<< (s.bit_length * new_zero_index)) +
        (tile <<< (s.bit_length * s.zero_index)))
      new_zero_index (s.cost + 1) (some (s.board, 'D')))

/-- `State.left`: illegal when the blank is in the last column; the tile to
the right of the blank slides left. -/
def State.left (s : State) : Option State :=
  if s.zero_index % s.width = s.width - 1 then none
  else
    let new_zero_index := s.zero_index + 1
    let tile := s.tile_at new_zero_index
    some (State.new s.bit_length s.width s.height
      (s.board - (tile <<< (s.bit_length * new_zero_index)) +
        (tile <<< (s.bit_length * s.zero_index)))
      new_zero_index (s.cost + 1) (some (s.board, 'L')))

/-- `State.right`: illegal when the blank is in the first column; the tile
to the left of the blank slides right. -/
def State.right (s : State) : Option State :=
  if s.zero_index % s.width = 0 then none
  else
    let new_zero_index := s.zero_index - 1
    let tile := s.tile_at new_zero_index
    some (State.new s.bit_length s.width s.height
      (s.board - (tile <<< (s.bit_length * new_zero_index)) +
        (tile <<< (s.bit_length * s.zero_index)))
      new_zero_index (s.cost + 1) (some (s.board, 'R')))

/-! ## The CPython `heapq` priority queue

`heappush`/`heappop` exactly as in CPython's `heapq.py`, specialised to
lists of `State` compared by `State.__lt__` (strict `<` on `priority`).
The loops of `_siftdown`/`_siftup` carry explicit structural fuel; the
initial fuel passed by the wrappers always suffices, so the fuel-exhausted
branches are never taken on real runs (and the permutation lemmas below
hold for every fuel). -/

/-- Default used for (never-reached) out-of-range list reads. -/
def dummyState : State := State.new 0 0 0 0 0 0 none

/-- `heap[i]`. -/
def lget (heap : List State) (i : Nat) : State := heap.getD i dummyState

/-- `heapq._siftdown(heap, startpos, pos)` with `newitem = heap[pos]`:
walk up from `pos`, moving each parent greater than `newitem` down, and
place `newitem` at the final position. -/
def siftdownAux : Nat → List State → Nat → Nat → State → List State
  | 0, heap, _, pos, newitem => heap.set pos newitem
  | fuel + 1, heap, startpos, pos, newitem =>
    if startpos < pos then
      let parentpos := (pos - 1) / 2
      let parent := lget heap parentpos
      if newitem.priority < parent.priority then
        siftdownAux fuel (heap.set pos parent) startpos parentpos newitem
      else heap.set pos newitem
    else heap.set pos newitem

/-- `heapq._siftup(heap, pos)` with `newitem = heap[pos]`: walk down,
pulling the smaller child up, then let `_siftdown` place `newitem`. -/
def siftupAux : Nat → List State → Nat → Nat → State → List State
  | 0, heap, startpos, pos, newitem => siftdownAux (pos + 1) heap startpos pos newitem
  | fuel + 1, heap, startpos, pos, newitem =>
    let endpos := heap.length
    let childpos := 2 * pos + 1
    if childpos < endpos then
      let childpos :=
        if childpos + 1 < endpos ∧
            ¬ (lget heap childpos).priority < (lget heap (childpos + 1)).priority then
          childpos + 1
        else childpos
      siftupAux fuel (heap.set pos (lget heap childpos)) startpos childpos newitem
    else siftdownAux (pos + 1) heap startpos pos newitem

/-- `heapq.heappush`: append, then sift the new item up towards the root. -/
def heappush (heap : List State) (item : State) : List State :=
  siftdownAux (heap.length + 1) (heap ++ [item]) 0 heap.length item

/-- `heapq.heappop`: remove the last element; if the heap is now empty it
is the result, otherwise it replaces the root and is sifted down, and the
old root is returned.  Returns `none` on an empty heap (Python raises). -/
def heappop (heap : List State) : Option (State × List State) :=
  match heap with
  | [] => none
  | x :: xs =>
    let lastelt := (x :: xs).getLastD dummyState
    let rest := (x :: xs).dropLast
    match rest with
    | [] => some (lastelt, [])
    | y :: ys =>
      some (y, siftupAux (y :: ys).length ((y :: ys).set 0 lastelt) 0 0 lastelt)

/-! ## The closed dict and the search loop -/

/-- The `closed` dict of `solve`: keys are packed boards (`State.__hash__`
and `__eq__` use only `board`), values are the recorded `src` back-links. -/
abbrev Closed := List (Nat × Option (Nat × Char))

/-- Dict lookup by board. -/
def dictGet? : Closed → Nat → Option (Option (Nat × Char))
  | [], _ => none
  | (k, v) :: rest, b => if k = b then some v else dictGet? rest b

/-- Python `closed[current] = current.src`: replace the value of an
existing key, else append a new entry. -/
def dictSet : Closed → Nat → Option (Nat × Char) → Closed
  | [], b, v => [(b, v)]
  | (k, v') :: rest, b, v =>
    if k = b then (k, v) :: rest else (k, v') :: dictSet rest b v

/-- `board in closed`. -/
def dictMem (closed : Closed) (b : Nat) : Bool := (dictGet? closed b).isSome

/-- `_reconstruct(map, src)`: follow back-links until an entry with value
`None`, collecting move labels.  The source appends while walking backward
and then reverses; here the parent's trail is computed first and the move
appended, which yields the same oldest-first order.  The fuel bounds the
walk (the source would loop forever on a cyclic `map`); `none` means the
walk failed, which a real run never produces. -/
def reconstruct (map : Closed) : Nat → Nat → Option (List Char)
  | _, 0 => none
  | b, fuel + 1 =>
    match dictGet? map b with
    | none => none
    | some none => some []
    | some (some (pb, m)) => (reconstruct map pb fuel).map (· ++ [m])

/-- Result of `solve`: the Python function returns either `None`
(unsolvable) or the list of move labels. -/
inductive SolveResult where
  | unsolvable : SolveResult
  | solution : List Char → SolveResult
deriving Repr, DecidableEq

/-- Push a generated neighbor if it exists and its board is not closed:
`if up is not None and up not in closed: heappush(open, up)`. -/
def pushIfNew (closed : Closed) (opn : List State) (child : Option State) : List State :=
  match child with
  | none => opn
  | some s => if dictMem closed s.board then opn else heappush opn s

/-- One expansion: generate the four neighbors in source order
(up, down, left, right) and push the new ones. -/
def expand (current : State) (opn : List State) (closed : Closed) : List State :=
  pushIfNew closed
    (pushIfNew closed
      (pushIfNew closed
        (pushIfNew closed opn current.up)
        current.down)
      current.left)
    current.right

/-- The `while len(open) > 0` loop of `solve`.  Each iteration pops the
minimum, records it in `closed` (overwriting any previous entry for the
same board — the source has no membership check at pop time), returns the
reconstruction if its heuristic is `0`, and otherwise expands it.  Outer
`none` means the fuel ran out or a reconstruction walk failed — artifacts
of the embedding, not results the Python code returns. -/
def searchLoop : Nat → List State → Closed → Option SolveResult
  | 0, _, _ => none
  | fuel + 1, opn, closed =>
    match heappop opn with
    | none => some .unsolvable
    | some (current, opn') =>
      let closed' := dictSet closed current.board current.src
      if current.heuristic_value = 0 then
        match reconstruct closed' current.board (closed'.length + 1) with
        | some trail => some (.solution trail)
        | none => none
      else
        searchLoop fuel (expand current opn' closed') closed'

/-- Row-major flattening of the input 2-D list. -/
def flatten (puz : List (List Nat)) : List Nat := puz.flatten

/-- `width = len(puz[0])`. -/
def boardWidth (puz : List (List Nat)) : Nat := (puz.headD []).length

/-- `height = len(puz)`. -/
def boardHeight (puz : List (List Nat)) : Nat := puz.length

/-- The packing loop of `solve`:
`board += puz[i][j] << (bit_length*(i*width+j))`, i.e. each row-major cell
value is added at its bit slot. -/
def packBoard (bl : Nat) (flat : List Nat) : Nat :=
  (flat.enum.map (fun kv => kv.2 <<< (bl * kv.1))).sum

/-- The blank-tracking of the packing loop:
`zero_index += i*width+j` for every cell holding `0`. -/
def zeroIndexOf (flat : List Nat) : Nat :=
  (flat.enum.map (fun kv => if kv.2 = 0 then kv.1 else 0)).sum

/-- The initial state built by `solve` before the search. -/
def initState (puz : List (List Nat)) : State :=
  let w := boardWidth puz
  let h := boardHeight puz
  let bl := clog2 (w * h)
  State.new bl w h (packBoard bl (flatten puz)) (zeroIndexOf (flatten puz)) 0 none

/-- `solve(puz)`: build the initial state, short-circuit on the
solvability pre-check, then run the search with `open = [init_state]` and
`closed = {}`. -/
def solve (puz : List (List Nat)) (fuel : Nat) : Option SolveResult :=
  let init := initState puz
  if init.is_solvable then searchLoop fuel [init] [] else some SolveResult.unsolvable

/-! ## Derived notions used to state the claims -/

/-- Decode a packed board to its row-major cell list. -/
def decodeBoard (bl n board : Nat) : List Nat :=
  (List.range n).map (tileAt bl board)

/-- The canonical solved order: tile `k` at linear index `k-1`, blank last. -/
def solvedFlat (n : Nat) : List Nat :=
  ((List.range (n - 1)).map (· + 1)) ++ [0]

/-- A state is solved when its decoded board is the canonical order. -/
def State.isSolved (s : State) : Bool :=
  decodeBoard s.bit_length (s.width * s.height) s.board = solvedFlat (s.width * s.height)

/-- A well-formed input: nonempty rectangle whose flattening contains each
of `0, …, w*h-1` (hence is a permutation of them). -/
def WellFormed (puz : List (List Nat)) : Prop :=
  0 < boardHeight puz ∧ 0 < boardWidth puz ∧
    (∀ row ∈ puz, row.length = boardWidth puz) ∧
    (flatten puz).length = boardWidth puz * boardHeight puz ∧
    ∀ k < boardWidth puz * boardHeight puz, k ∈ flatten puz

instance (puz : List (List Nat)) : Decidable (WellFormed puz) := by
  unfold WellFormed; infer_instance

/-- Apply one move label to a state, as the animation consumer does:
`'U'`, `'D'`, `'L'`, `'R'` select the corresponding generator. -/
def applyMove (s : State) (m : Char) : Option State :=
  if m = 'U' then s.up
  else if m = 'D' then s.down
  else if m = 'L' then s.left
  else if m = 'R' then s.right
  else none

/-- Apply a move sequence left to right (oldest first). -/
def applyMoves (s : State) : List Char → Option State
  | [] => some s
  | m :: ms => (applyMove s m).bind (fun s' => applyMoves s' ms)

/-! ## Instrumented search

`searchLoopT` is `searchLoop` extended with observations that the claims
speak about: the chronological list of `(board, src)` pairs recorded into
`closed` (one per pop), the number of pops that were expanded into
successor states, and the final `closed` dict.  `searchLoopT_fst` proves
it computes the same result as `searchLoop`. -/

def searchLoopT : Nat → List State → Closed → List (Nat × Option (Nat × Char)) → Nat →
    Option SolveResult × List (Nat × Option (Nat × Char)) × Nat × Closed
  | 0, _, closed, log, cnt => (none, log, cnt, closed)
  | fuel + 1, opn, closed, log, cnt =>
    match heappop opn with
    | none => (some .unsolvable, log, cnt, closed)
    | some (current, opn') =>
      let log' := log ++ [(current.board, current.src)]
      let closed' := dictSet closed current.board current.src
      if current.heuristic_value = 0 then
        match reconstruct closed' current.board (closed'.length + 1) with
        | some trail => (some (.solution trail), log', cnt, closed')
        | none => (none, log', cnt, closed')
      else
        searchLoopT fuel (expand current opn' closed') closed' log' (cnt + 1)

/-- Instrumented `solve`: same result, plus the pop log, the number of
expanded pops, and the final closed dict. -/
def solveT (puz : List (List Nat)) (fuel : Nat) :
    Option SolveResult × List (Nat × Option (Nat × Char)) × Nat × Closed :=
  let init := initState puz
  if init.is_solvable then searchLoopT fuel [init] [] [] 0
  else (some SolveResult.unsolvable, [], 0, [])

theorem searchLoopT_fst (fuel : Nat) :
    ∀ opn closed log cnt, (searchLoopT fuel opn closed log cnt).1 = searchLoop fuel opn closed := by
  induction fuel with
  | zero => intro opn closed log cnt; rfl
  | succ n ih =>
    intro opn closed log cnt
    simp only [searchLoopT, searchLoop]
    cases heappop opn with
    | none => rfl
    | some pr =>
      cases pr with
      | mk current opn' =>
        by_cases h : current.heuristic_value = 0
        · simp only [h, if_true]
          cases reconstruct (dictSet closed current.board current.src) current.board
              ((dictSet closed current.board current.src).length + 1) <;> rfl
        · simp only [h, if_false]
          exact ih _ _ _ _

theorem solveT_fst (puz : List (List Nat)) (fuel : Nat) :
    (solveT puz fuel).1 = solve puz fuel := by
  unfold solveT solve
  by_cases h : (initState puz).is_solvable <;> simp [h, searchLoopT_fst]

/-! ## Board codec correctness

`packList` is the little-endian recursive form of the packing sum: the
packing loop `board += puz[i][j] << (bit_length*(i*width+j))` produces
`Σ flat[k] * 2^(bl*k)`, which equals `packList bl flat`. -/

/-- `v₀ + 2^bl * (v₁ + 2^bl * (...))`: the packed integer of a cell list. -/
def packList (bl : Nat) : List Nat → Nat
  | [] => 0
  | v :: rest => v + 2 ^ bl * packList bl rest

theorem packBoard_enumFrom (bl : Nat) (flat : List Nat) :
    ∀ n, ((List.enumFrom n flat).map (fun kv => kv.2 <<< (bl * kv.1))).sum =
      2 ^ (bl * n) * packList bl flat := by
  induction flat with
  | nil => intro n; simp [packList]
  | cons v rest ih =>
    intro n
    simp only [List.enumFrom_cons, List.map_cons, List.sum_cons, packList, ih (n + 1)]
    rw [Nat.shiftLeft_eq, show bl * (n + 1) = bl * n + bl by ring, pow_add]
    ring

theorem packBoard_eq_packList (bl : Nat) (flat : List Nat) :
    packBoard bl flat = packList bl flat := by
  have h := packBoard_enumFrom bl flat 0
  simpa [packBoard, List.enum] using h

/-- `tile_at` in arithmetic form: shift out `bl*idx` bits, keep `bl` bits. -/
theorem tileAt_eq_div_mod (bl board idx : Nat) :
    tileAt bl board idx = board / 2 ^ (bl * idx) % 2 ^ bl := by
  unfold tileAt
  have hmask : (board &&& (((1 <<< bl) - 1) <<< (bl * idx))) >>> (bl * idx) =
      (board >>> (bl * idx)) &&& ((1 <<< bl) - 1) := by
    apply Nat.eq_of_testBit_eq
    intro k
    simp only [Nat.testBit_shiftRight, Nat.testBit_and, Nat.testBit_shiftLeft]
    have h1 : bl * idx ≤ bl * idx + k := Nat.le_add_right _ _
    simp [h1, Nat.add_sub_cancel_left]
  rw [hmask, Nat.one_shiftLeft, Nat.shiftRight_eq_div_pow,
    Nat.and_pow_two_sub_one_eq_mod]

/-- Reading back a cell from a packed list of in-range values. -/
theorem tileAt_packList (bl : Nat) (vals : List Nat)
    (hb : ∀ v ∈ vals, v < 2 ^ bl) :
    ∀ idx, tileAt bl (packList bl vals) idx = vals.getD idx 0 := by
  induction vals with
  | nil =>
    intro idx
    simp [tileAt_eq_div_mod, packList, Nat.zero_div, Nat.zero_mod]
  | cons v rest ih =>
    intro idx
    have hv : v < 2 ^ bl := hb v (List.mem_cons_self _ _)
    have hrest : ∀ x ∈ rest, x < 2 ^ bl := fun x hx => hb x (List.mem_cons_of_mem _ hx)
    cases idx with
    | zero =>
      simp only [tileAt_eq_div_mod, packList, Nat.mul_zero, pow_zero, Nat.div_one,
        List.getD_cons_zero]
      rw [Nat.add_mul_mod_self_left, Nat.mod_eq_of_lt hv]
    | succ i =>
      have h1 : (v + 2 ^ bl * packList bl rest) / 2 ^ (bl * (i + 1)) =
          packList bl rest / 2 ^ (bl * i) := by
        have h2 : bl * (i + 1) = bl + bl * i := by ring
        rw [h2, pow_add, ← Nat.div_div_eq_div_mul]
        congr 1
        rw [Nat.add_mul_div_left _ _ (Nat.pos_pow_of_pos bl (by norm_num)),
          Nat.div_eq_of_lt hv, Nat.zero_add]
      simp only [tileAt_eq_div_mod, packList, h1, List.getD_cons_succ]
      rw [← tileAt_eq_div_mod]
      exact ih hrest i

/-- The packed integer of in-range values fits in `bl * length` bits. -/
theorem packList_lt (bl : Nat) (vals : List Nat)
    (hb : ∀ v ∈ vals, v < 2 ^ bl) :
    packList bl vals < 2 ^ (bl * vals.length) := by
  induction vals with
  | nil => simp [packList]
  | cons v rest ih =>
    have hv : v < 2 ^ bl := hb v (List.mem_cons_self _ _)
    have hrest : ∀ x ∈ rest, x < 2 ^ bl := fun x hx => hb x (List.mem_cons_of_mem _ hx)
    have h1 := ih hrest
    simp only [packList, List.length_cons]
    have h2 : bl * (rest.length + 1) = bl + bl * rest.length := by ring
    rw [h2, pow_add]
    have h3 : 2 ^ bl * packList bl rest + 2 ^ bl ≤ 2 ^ bl * 2 ^ (bl * rest.length) := by
      calc 2 ^ bl * packList bl rest + 2 ^ bl = 2 ^ bl * (packList bl rest + 1) := by ring
        _ ≤ 2 ^ bl * 2 ^ (bl * rest.length) := Nat.mul_le_mul_left _ (by omega)
    omega

/-- `n - 1` fits in `bitsAux` many bits. -/
theorem bitsAux_lt (fuel : Nat) : ∀ m, m ≤ fuel → m < 2 ^ bitsAux fuel m := by
  induction fuel with
  | zero => intro m hm; interval_cases m; simp [bitsAux]
  | succ f ih =>
    intro m hm
    by_cases h0 : m = 0
    · simp [bitsAux, h0]
    · have hdiv : m / 2 ≤ f := by omega
      have := ih (m / 2) hdiv
      simp only [bitsAux, h0, if_false]
      have : m ≤ 2 * (m / 2) + 1 := by omega
      calc m ≤ 2 * (m / 2) + 1 := this
        _ < 2 * 2 ^ bitsAux f (m / 2) := by omega
        _ = 2 ^ (bitsAux f (m / 2) + 1) := by ring

/-- Every legal tile value fits in `clog2 n` bits. -/
theorem lt_two_pow_clog2 (n : Nat) : ∀ v < n, v < 2 ^ clog2 n := by
  intro v hv
  have h1 : n - 1 < 2 ^ clog2 n := bitsAux_lt (n - 1) (n - 1) le_rfl
  omega

theorem bitsAux_zero (fuel : Nat) : bitsAux fuel 0 = 0 := by
  cases fuel <;> simp [bitsAux]

/-- `2^(bitsAux m m)` is at most `2m` for `m ≠ 0` (tightness of `bitsAux`). -/
theorem bitsAux_le (fuel : Nat) : ∀ m, m ≤ fuel → m ≠ 0 → 2 ^ bitsAux fuel m ≤ 2 * m := by
  induction fuel with
  | zero => intro m hm h0; omega
  | succ f ih =>
    intro m hm h0
    simp only [bitsAux, h0, if_false]
    by_cases hhalf : m / 2 = 0
    · have h1 : m = 1 := by omega
      simp [h1, hhalf, bitsAux_zero]
    · have hdiv : m / 2 ≤ f := by omega
      have h1 := ih (m / 2) hdiv hhalf
      have h2 : 2 * (m / 2) ≤ m := by omega
      calc 2 ^ (bitsAux f (m / 2) + 1) = 2 * 2 ^ bitsAux f (m / 2) := by ring
        _ ≤ 2 * (2 * (m / 2)) := by omega
        _ ≤ 2 * m := by omega

/-- The source's `bit_length = ceil(log2(width*height))`: `clog2` agrees
with Mathlib's ceiling logarithm on every positive argument. -/
theorem clog2_eq_clog (n : Nat) (hn : 0 < n) : clog2 n = Nat.clog 2 n := by
  rcases Nat.lt_or_ge n 2 with h2 | h2
  · interval_cases n
    · simp [clog2, bitsAux, Nat.clog_one_right]
  · apply Nat.le_antisymm
    · by_contra h
      push_neg at h
      have hk : Nat.clog 2 n + 1 ≤ clog2 n := h
      have hub : n ≤ 2 ^ Nat.clog 2 n := Nat.le_pow_clog (by norm_num) n
      have hlb : 2 ^ clog2 n ≤ 2 * (n - 1) :=
        bitsAux_le (n - 1) (n - 1) le_rfl (by omega)
      have h3 : 2 ^ (Nat.clog 2 n + 1) ≤ 2 ^ clog2 n := Nat.pow_le_pow_right (by norm_num) hk
      have h4 : 2 * n ≤ 2 ^ (Nat.clog 2 n + 1) := by
        have : 2 ^ (Nat.clog 2 n + 1) = 2 * 2 ^ Nat.clog 2 n := by ring
        omega
      omega
    · rw [← Nat.le_pow_iff_clog_le (by norm_num)]
      have : n - 1 < 2 ^ clog2 n := bitsAux_lt (n - 1) (n - 1) le_rfl
      omega

/-- A well-formed board's flattening is a permutation of `0, …, n-1`. -/
theorem wellFormed_perm (puz : List (List Nat)) (h : WellFormed puz) :
    (flatten puz).Perm (List.range (boardWidth puz * boardHeight puz)) := by
  obtain ⟨_, _, _, hlen, hmem⟩ := h
  have hsub : List.range (boardWidth puz * boardHeight puz) ⊆ flatten puz := by
    intro k hk
    exact hmem k (List.mem_range.mp hk)
  have hsp := (List.nodup_range _).subperm hsub
  exact (hsp.perm_of_length_le (by simp [hlen])).symm

/-- Every value on a well-formed board is below `n`, hence fits in the
`clog2 n` cell width. -/
theorem wellFormed_val_lt (puz : List (List Nat)) (h : WellFormed puz) :
    ∀ v ∈ flatten puz, v < 2 ^ clog2 (boardWidth puz * boardHeight puz) := by
  intro v hv
  have hp := wellFormed_perm puz h
  have : v ∈ List.range (boardWidth puz * boardHeight puz) := hp.mem_iff.mp hv
  exact lt_two_pow_clog2 _ v (List.mem_range.mp this)

/-- Decoding the initial state's packed board reads back the input cells. -/
theorem initState_tile_at (puz : List (List Nat)) (h : WellFormed puz) (idx : Nat) :
    (initState puz).tile_at idx = (flatten puz).getD idx 0 := by
  show tileAt (clog2 (boardWidth puz * boardHeight puz))
      (packBoard (clog2 (boardWidth puz * boardHeight puz)) (flatten puz)) idx = _
  rw [packBoard_eq_packList]
  exact tileAt_packList _ _ (wellFormed_val_lt puz h) idx

/-- C9: for every well-formed board, the packing of `solve` uses
`bit_length = ceil(log2(width*height))` bits per cell (`Nat.clog 2` is the
ceiling base-2 logarithm), and `tile_at` reads every row-major cell of the
packed integer back to exactly the original input value: decoding inverts
encoding at every cell. -/
theorem pack_decode_roundtrip (puz : List (List Nat)) (h : WellFormed puz) :
    (initState puz).bit_length = Nat.clog 2 (boardWidth puz * boardHeight puz) ∧
    ∀ idx < boardWidth puz * boardHeight puz,
      (initState puz).tile_at idx = (flatten puz).getD idx 0 := by
  constructor
  · show clog2 _ = _
    exact clog2_eq_clog _ (Nat.mul_pos h.2.1 h.1)
  · intro idx _
    exact initState_tile_at puz h idx

/-- Witness for C9 at the concrete board `[[1,2],[0,3]]`. -/
theorem pack_decode_roundtrip_witness :
    WellFormed [[1,2],[0,3]] ∧
    ((initState [[1,2],[0,3]]).bit_length =
        Nat.clog 2 (boardWidth [[1,2],[0,3]] * boardHeight [[1,2],[0,3]]) ∧
      ∀ idx < boardWidth [[1,2],[0,3]] * boardHeight [[1,2],[0,3]],
        (initState [[1,2],[0,3]]).tile_at idx = (flatten [[1,2],[0,3]]).getD idx 0) :=
  ⟨by decide, pack_decode_roundtrip [[1,2],[0,3]] (by decide)⟩

/-- The row-conflict scan as the specification describes it, for
comparison with the source's `conflictScan` (this definition follows the
spec's words, not the code): for the tile at `(i, j)`, scan the cells of
row `i` strictly to the right of column `j`, and add `2` for every
scanned non-blank tile whose goal row is `i` and whose goal column is at
or before the scanned position. -/
def specConflictScan (bl w board i j : Nat) : Nat :=
  ((pyRange (j + 1) w).map (fun k =>
    let tile := tileAt bl board (i * w + k)
    if tile ≠ 0 ∧ (tile - 1) / w = i ∧ (tile - 1) % w ≤ k then 2 else 0)).sum

/-! ## Decoding lemmas and the state invariant -/

theorem decode_length (bl n b : Nat) : (decodeBoard bl n b).length = n := by
  simp [decodeBoard]

theorem decode_lt (bl n b : Nat) : ∀ v ∈ decodeBoard bl n b, v < 2 ^ bl := by
  intro v hv
  simp only [decodeBoard, List.mem_map] at hv
  obtain ⟨i, _, hi⟩ := hv
  rw [← hi, tileAt_eq_div_mod]
  exact Nat.mod_lt _ (Nat.pos_pow_of_pos bl (by norm_num))

theorem map_getD_range (l : List Nat) :
    (List.range l.length).map (fun i => l.getD i 0) = l := by
  induction l with
  | nil => simp
  | cons x xs ih =>
    rw [List.length_cons, List.range_succ_eq_map, List.map_cons, List.map_map]
    have h1 : ((fun i => (x :: xs).getD i 0) ∘ Nat.succ) = fun i => xs.getD i 0 := by
      funext i
      simp [List.getD_cons_succ]
    simp only [List.getD_cons_zero, h1, ih]

theorem decode_getD (bl n b i : Nat) (h : i < n) :
    (decodeBoard bl n b).getD i 0 = tileAt bl b i := by
  simp only [decodeBoard, List.getD_eq_getElem?_getD, List.getElem?_map,
    List.getElem?_range h, Option.map_some', Option.getD_some]

theorem tileAt_succ (bl b i : Nat) : tileAt bl b (i + 1) = tileAt bl (b / 2 ^ bl) i := by
  simp only [tileAt_eq_div_mod]
  rw [show bl * (i + 1) = bl + bl * i by ring, pow_add, ← Nat.div_div_eq_div_mul]

theorem decode_succ (bl n b : Nat) :
    decodeBoard bl (n + 1) b = (b % 2 ^ bl) :: decodeBoard bl n (b / 2 ^ bl) := by
  simp only [decodeBoard, List.range_succ_eq_map, List.map_cons, List.map_map]
  congr 1
  · rw [tileAt_eq_div_mod]
    simp
  · congr 1
    funext i
    exact tileAt_succ bl b i

/-- Encoding the decoded cells reproduces a board that fits its width. -/
theorem encode_decode (bl : Nat) : ∀ n b, b < 2 ^ (bl * n) →
    packList bl (decodeBoard bl n b) = b := by
  intro n
  induction n with
  | zero =>
    intro b hb
    simp only [Nat.mul_zero, pow_zero, Nat.lt_one_iff] at hb
    simp [decodeBoard, hb, packList]
  | succ m ih =>
    intro b hb
    rw [decode_succ]
    simp only [packList]
    rw [ih (b / 2 ^ bl) ?hlt, Nat.mod_add_div]
    case hlt =>
      rw [Nat.div_lt_iff_lt_mul (Nat.pos_pow_of_pos bl (by norm_num))]
      calc b < 2 ^ (bl * (m + 1)) := hb
        _ = 2 ^ (bl * m) * 2 ^ bl := by rw [← pow_add]; ring_nf

/-- Overwriting position `i` changes the packed integer linearly. -/
theorem packList_set_int (bl : Nat) : ∀ (vals : List Nat) (i x : Nat), i < vals.length →
    (packList bl (vals.set i x) : ℤ) =
      (packList bl vals : ℤ) + ((x : ℤ) - (vals.getD i 0 : ℤ)) * 2 ^ (bl * i) := by
  intro vals
  induction vals with
  | nil => intro i x hi; simp at hi
  | cons v rest ih =>
    intro i x hi
    cases i with
    | zero =>
      simp [packList, List.set_cons_zero, List.getD_cons_zero]
      ring
    | succ j =>
      have hj : j < rest.length := by simpa using hi
      simp only [List.set_cons_succ, packList, List.getD_cons_succ]
      rw [show bl * (j + 1) = bl + bl * j by ring, pow_add]
      push_cast
      rw [ih j x hj]
      ring

/-- Each cell's contribution is bounded by the packed integer (so the
source's `new_board -= tile << …` never underflows). -/
theorem getD_mul_pow_le_packList (bl : Nat) : ∀ (vals : List Nat) (i : Nat), i < vals.length →
    vals.getD i 0 * 2 ^ (bl * i) ≤ packList bl vals := by
  intro vals
  induction vals with
  | nil => intro i hi; simp at hi
  | cons v rest ih =>
    intro i hi
    cases i with
    | zero => simp [packList, List.getD_cons_zero]
    | succ j =>
      have hj : j < rest.length := by simpa using hi
      simp only [List.getD_cons_succ, packList]
      calc rest.getD j 0 * 2 ^ (bl * (j + 1))
          = 2 ^ bl * (rest.getD j 0 * 2 ^ (bl * j)) := by
            rw [show bl * (j + 1) = bl + bl * j by ring, pow_add]; ring
        _ ≤ 2 ^ bl * packList bl rest := Nat.mul_le_mul_left _ (ih j hj)
        _ ≤ v + 2 ^ bl * packList bl rest := Nat.le_add_left _ _

/-- Swapping the contents of two positions is a permutation. -/
theorem set_set_perm {α : Type} [DecidableEq α] (l : List α) (d : α) (i j : Nat)
    (hi : i < l.length) (hj : j < l.length) (hij : i ≠ j) :
    ((l.set i (l.getD j d)).set j (l.getD i d)).Perm l := by
  rw [List.perm_iff_count]
  intro a
  have hlen : (l.set i (l.getD j d)).length = l.length := by simp
  have hgi : l.getD i d = l[i] := by
    rw [List.getD_eq_getElem?_getD, List.getElem?_eq_getElem hi]
    rfl
  have hgj : l.getD j d = l[j] := by
    rw [List.getD_eq_getElem?_getD, List.getElem?_eq_getElem hj]
    rfl
  have hj' : j < (l.set i (l.getD j d)).length := by omega
  have hset : (l.set i (l.getD j d))[j] = l[j] := by
    have h1 : (l.set i (l.getD j d))[j]? = l[j]? := List.getElem?_set_ne hij
    rw [List.getElem?_eq_getElem hj, List.getElem?_eq_getElem hj'] at h1
    exact Option.some.inj h1
  rw [List.count_set _ _ _ _ (by omega), List.count_set _ _ _ _ hi, hset, hgi, hgj]
  have hci : (if (l[i] == a) = true then 1 else 0) ≤ List.count a l := by
    by_cases h : (l[i] == a) = true
    · simp only [h, if_true]
      exact List.count_pos_iff.mpr (by rw [← eq_of_beq h]; exact l.getElem_mem hi)
    · simp [h]
  have hcj : (if (l[j] == a) = true then 1 else 0) ≤ List.count a l := by
    by_cases h : (l[j] == a) = true
    · simp only [h, if_true]
      exact List.count_pos_iff.mpr (by rw [← eq_of_beq h]; exact l.getElem_mem hj)
    · simp [h]
  omega

/-- The invariant maintained by the search on every constructed state:
consistent dimensions, a packed board that fits in `bl*n` bits and decodes
to a permutation of `0, …, n-1`, and a `zero_index` that is in range and
points at the blank. -/
def GoodState (s : State) : Prop :=
  0 < s.width ∧ 0 < s.height ∧
  s.bit_length = clog2 (s.width * s.height) ∧
  s.zero_index < s.width * s.height ∧
  s.board < 2 ^ (s.bit_length * (s.width * s.height)) ∧
  (decodeBoard s.bit_length (s.width * s.height) s.board).Perm
    (List.range (s.width * s.height)) ∧
  tileAt s.bit_length s.board s.zero_index = 0

instance (s : State) : Decidable (GoodState s) := by
  unfold GoodState
  infer_instance

theorem getD_set_ne {α : Type} (l : List α) (i j : Nat) (a d : α) (hij : i ≠ j) :
    (l.set i a).getD j d = l.getD j d := by
  rw [List.getD_eq_getElem?_getD, List.getD_eq_getElem?_getD, List.getElem?_set_ne hij]

theorem getD_set_self {α : Type} (l : List α) (i : Nat) (a d : α) (hi : i < l.length) :
    (l.set i a).getD i d = a := by
  rw [List.getD_eq_getElem?_getD, List.getElem?_set]
  simp [hi]

theorem getD_mem {α : Type} (l : List α) (i : Nat) (d : α) (hi : i < l.length) :
    l.getD i d ∈ l := by
  rw [List.getD_eq_getElem?_getD, List.getElem?_eq_getElem hi]
  exact l.getElem_mem hi

/-- Decoding inverts `packList` on full-length in-range cell lists. -/
theorem decode_packList (bl n : Nat) (vals : List Nat) (hlen : vals.length = n)
    (hb : ∀ v ∈ vals, v < 2 ^ bl) :
    decodeBoard bl n (packList bl vals) = vals := by
  subst hlen
  unfold decodeBoard
  calc (List.range vals.length).map (tileAt bl (packList bl vals))
      = (List.range vals.length).map (fun i => vals.getD i 0) := by
        apply List.map_congr_left
        intro i _
        exact tileAt_packList bl vals hb i
    _ = vals := map_getD_range vals

/-- The common core of the four move generators: sliding the tile at cell
`nz` into the blank cell `z` yields the packed board of the cell list with
the two positions swapped, and the constructed state again satisfies the
invariant. -/
theorem moved_state_good (s : State) (hs : GoodState s) (nz : Nat)
    (hlt : nz < s.width * s.height) (hne : nz ≠ s.zero_index) (cost : Nat)
    (src : Option (Nat × Char)) :
    decodeBoard s.bit_length (s.width * s.height)
      (s.board - (s.tile_at nz) <<< (s.bit_length * nz) +
        (s.tile_at nz) <<< (s.bit_length * s.zero_index)) =
      ((decodeBoard s.bit_length (s.width * s.height) s.board).set s.zero_index
        (s.tile_at nz)).set nz 0 ∧
    GoodState (State.new s.bit_length s.width s.height
      (s.board - (s.tile_at nz) <<< (s.bit_length * nz) +
        (s.tile_at nz) <<< (s.bit_length * s.zero_index))
      nz cost src) := by
  obtain ⟨hw, hh, hbl, hz, hblt, hperm, ht0⟩ := hs
  set n := s.width * s.height with hn
  set bl := s.bit_length with hbldef
  set z := s.zero_index with hzdef
  set vals := decodeBoard bl n s.board with hvals
  set t := s.tile_at nz with htdef
  have hlen : vals.length = n := decode_length bl n s.board
  have hbvals : ∀ v ∈ vals, v < 2 ^ bl := decode_lt bl n s.board
  have henc : packList bl vals = s.board := encode_decode bl n s.board hblt
  have htval : vals.getD nz 0 = t := decode_getD bl n s.board nz hlt
  have hzval : vals.getD z 0 = 0 := by
    rw [decode_getD bl n s.board z hz]
    exact ht0
  set vals' := (vals.set z t).set nz 0 with hvals'
  have hlen' : vals'.length = n := by simp [hvals', hlen]
  have htmem : t ∈ vals := by
    rw [← htval]
    exact getD_mem vals nz 0 (by omega)
  have hbvals' : ∀ v ∈ vals', v < 2 ^ bl := by
    intro v hv
    rcases List.mem_or_eq_of_mem_set hv with hv2 | hv2
    · rcases List.mem_or_eq_of_mem_set hv2 with hv3 | hv3
      · exact hbvals v hv3
      · rw [hv3]
        exact hbvals t htmem
    · rw [hv2]
      exact Nat.pos_pow_of_pos bl (by norm_num)
  -- the packed arithmetic of the move
  have hboard : s.board - t <<< (bl * nz) + t <<< (bl * z) = packList bl vals' := by
    rw [Nat.shiftLeft_eq, Nat.shiftLeft_eq]
    have hle : t * 2 ^ (bl * nz) ≤ s.board := by
      rw [← henc, ← htval]
      exact getD_mul_pow_le_packList bl vals nz (by omega)
    have hint1 : (packList bl (vals.set z t) : ℤ) =
        (packList bl vals : ℤ) + ((t : ℤ) - 0) * 2 ^ (bl * z) := by
      rw [packList_set_int bl vals z t (by omega), hzval]
      norm_num
    have hint2 : (packList bl vals' : ℤ) =
        (packList bl (vals.set z t) : ℤ) + ((0 : ℤ) - t) * 2 ^ (bl * nz) := by
      rw [hvals', packList_set_int bl (vals.set z t) nz 0 (by simp; omega)]
      rw [getD_set_ne vals z nz t 0 (by omega), htval]
      norm_num
    have hcomb := hint2
    rw [hint1] at hcomb
    have henci : ((s.board : Nat) : ℤ) = (packList bl vals : ℤ) :=
      Nat.cast_inj.mpr henc.symm
    have hcast : ((s.board - t * 2 ^ (bl * nz) + t * 2 ^ (bl * z) : Nat) : ℤ) =
        ((packList bl vals' : Nat) : ℤ) := by
      push_cast [hle]
      rw [hcomb, henci]
      ring
    exact_mod_cast hcast
  have hdec : decodeBoard bl n (s.board - t <<< (bl * nz) + t <<< (bl * z)) = vals' := by
    rw [hboard]
    exact decode_packList bl n vals' hlen' hbvals'
  refine ⟨hdec, ?_, ?_, ?_, ?_, ?_, ?_, ?_⟩
  · exact hw
  · exact hh
  · exact hbl
  · exact hlt
  · show s.board - t <<< (bl * nz) + t <<< (bl * z) < 2 ^ (bl * n)
    rw [hboard, ← hlen']
    exact packList_lt bl vals' hbvals'
  · show (decodeBoard bl n (s.board - t <<< (bl * nz) + t <<< (bl * z))).Perm (List.range n)
    rw [hdec]
    refine List.Perm.trans ?_ hperm
    have heq : vals' = (vals.set z (vals.getD nz 0)).set nz (vals.getD z 0) := by
      rw [hvals', htval, hzval]
    rw [heq]
    exact set_set_perm vals 0 z nz (by omega) (by omega) (by omega)
  · show tileAt bl (s.board - t <<< (bl * nz) + t <<< (bl * z)) nz = 0
    have := decode_getD bl n (s.board - t <<< (bl * nz) + t <<< (bl * z)) nz hlt
    rw [hdec] at this
    rw [← this, hvals']
    exact getD_set_self (vals.set z t) nz 0 0 (by simp; omega)

/-- `up` preserves the invariant; the produced state's fields and decoded
board are the expected swap. -/
theorem up_good (s s' : State) (hs : GoodState s) (h : s.up = some s') :
    GoodState s' ∧ s'.width = s.width ∧ s'.height = s.height ∧
    s'.bit_length = s.bit_length ∧ s'.cost = s.cost + 1 ∧
    s'.src = some (s.board, 'U') ∧ s'.zero_index = s.zero_index + s.width ∧
    s'.heuristic_value = heuristicValue s.bit_length s.width s.height s'.board ∧
    decodeBoard s.bit_length (s.width * s.height) s'.board =
      ((decodeBoard s.bit_length (s.width * s.height) s.board).set s.zero_index
        (s.tile_at (s.zero_index + s.width))).set (s.zero_index + s.width) 0 := by
  unfold State.up at h
  by_cases hg : s.zero_index / s.width = s.height - 1
  · rw [if_pos hg] at h
    exact absurd h (by simp)
  · rw [if_neg hg] at h
    obtain ⟨hw, hh, hbl, hz, hblt, hperm, ht0⟩ := hs
    have hq : s.zero_index / s.width < s.height := by
      rw [Nat.div_lt_iff_lt_mul hw]
      calc s.zero_index < s.width * s.height := hz
        _ = s.height * s.width := by ring
    obtain ⟨h', hh'⟩ : ∃ h', s.height = h' + 1 := ⟨s.height - 1, by omega⟩
    have hqh : s.zero_index / s.width + 1 ≤ h' := by omega
    have hmul : s.width * (s.zero_index / s.width + 1) ≤ s.width * h' :=
      Nat.mul_le_mul_left _ hqh
    have hqr : s.width * (s.zero_index / s.width) + s.zero_index % s.width = s.zero_index :=
      Nat.div_add_mod _ _
    have hr : s.zero_index % s.width < s.width := Nat.mod_lt _ hw
    have hident : s.width * (s.zero_index / s.width + 1) =
        s.width * (s.zero_index / s.width) + s.width := by ring
    have hident2 : s.width * (h' + 1) = s.width * h' + s.width := by ring
    have hlt : s.zero_index + s.width < s.width * s.height := by
      rw [hh', hident2]
      omega
    have hne : s.zero_index + s.width ≠ s.zero_index := by omega
    have hmv := moved_state_good s ⟨hw, hh, hbl, hz, hblt, hperm, ht0⟩
      (s.zero_index + s.width) hlt hne (s.cost + 1) (some (s.board, 'U'))
    obtain rfl : State.new s.bit_length s.width s.height
        (s.board - (s.tile_at (s.zero_index + s.width)) <<<
            (s.bit_length * (s.zero_index + s.width)) +
          (s.tile_at (s.zero_index + s.width)) <<< (s.bit_length * s.zero_index))
        (s.zero_index + s.width) (s.cost + 1) (some (s.board, 'U')) = s' :=
      Option.some.inj h
    exact ⟨hmv.2, rfl, rfl, rfl, rfl, rfl, rfl, rfl, hmv.1⟩

/-- `down` preserves the invariant. -/
theorem down_good (s s' : State) (hs : GoodState s) (h : s.down = some s') :
    GoodState s' ∧ s'.width = s.width ∧ s'.height = s.height ∧
    s'.bit_length = s.bit_length ∧ s'.cost = s.cost + 1 ∧
    s'.src = some (s.board, 'D') ∧ s'.zero_index = s.zero_index - s.width ∧
    s'.heuristic_value = heuristicValue s.bit_length s.width s.height s'.board ∧
    decodeBoard s.bit_length (s.width * s.height) s'.board =
      ((decodeBoard s.bit_length (s.width * s.height) s.board).set s.zero_index
        (s.tile_at (s.zero_index - s.width))).set (s.zero_index - s.width) 0 := by
  unfold State.down at h
  by_cases hg : s.zero_index / s.width = 0
  · rw [if_pos hg] at h
    exact absurd h (by simp)
  · rw [if_neg hg] at h
    obtain ⟨hw, hh, hbl, hz, hblt, hperm, ht0⟩ := hs
    have hwz : s.width ≤ s.zero_index := by
      by_contra hc
      push_neg at hc
      exact hg (Nat.div_eq_of_lt hc)
    have hlt : s.zero_index - s.width < s.width * s.height := by omega
    have hne : s.zero_index - s.width ≠ s.zero_index := by omega
    have hmv := moved_state_good s ⟨hw, hh, hbl, hz, hblt, hperm, ht0⟩
      (s.zero_index - s.width) hlt hne (s.cost + 1) (some (s.board, 'D'))
    obtain rfl : State.new s.bit_length s.width s.height
        (s.board - (s.tile_at (s.zero_index - s.width)) <<<
            (s.bit_length * (s.zero_index - s.width)) +
          (s.tile_at (s.zero_index - s.width)) <<< (s.bit_length * s.zero_index))
        (s.zero_index - s.width) (s.cost + 1) (some (s.board, 'D')) = s' :=
      Option.some.inj h
    exact ⟨hmv.2, rfl, rfl, rfl, rfl, rfl, rfl, rfl, hmv.1⟩

/-- `left` preserves the invariant. -/
theorem left_good (s s' : State) (hs : GoodState s) (h : s.left = some s') :
    GoodState s' ∧ s'.width = s.width ∧ s'.height = s.height ∧
    s'.bit_length = s.bit_length ∧ s'.cost = s.cost + 1 ∧
    s'.src = some (s.board, 'L') ∧ s'.zero_index = s.zero_index + 1 ∧
    s'.heuristic_value = heuristicValue s.bit_length s.width s.height s'.board ∧
    decodeBoard s.bit_length (s.width * s.height) s'.board =
      ((decodeBoard s.bit_length (s.width * s.height) s.board).set s.zero_index
        (s.tile_at (s.zero_index + 1))).set (s.zero_index + 1) 0 := by
  unfold State.left at h
  by_cases hg : s.zero_index % s.width = s.width - 1
  · rw [if_pos hg] at h
    exact absurd h (by simp)
  · rw [if_neg hg] at h
    obtain ⟨hw, hh, hbl, hz, hblt, hperm, ht0⟩ := hs
    have hq : s.zero_index / s.width < s.height := by
      rw [Nat.div_lt_iff_lt_mul hw]
      calc s.zero_index < s.width * s.height := hz
        _ = s.height * s.width := by ring
    have hqh : s.zero_index / s.width + 1 ≤ s.height := by omega
    have hmul : s.width * (s.zero_index / s.width + 1) ≤ s.width * s.height :=
      Nat.mul_le_mul_left _ hqh
    have hqr : s.width * (s.zero_index / s.width) + s.zero_index % s.width = s.zero_index :=
      Nat.div_add_mod _ _
    have hr : s.zero_index % s.width < s.width := Nat.mod_lt _ hw
    have hident : s.width * (s.zero_index / s.width + 1) =
        s.width * (s.zero_index / s.width) + s.width := by ring
    have hlt : s.zero_index + 1 < s.width * s.height := by omega
    have hne : s.zero_index + 1 ≠ s.zero_index := by omega
    have hmv := moved_state_good s ⟨hw, hh, hbl, hz, hblt, hperm, ht0⟩
      (s.zero_index + 1) hlt hne (s.cost + 1) (some (s.board, 'L'))
    obtain rfl : State.new s.bit_length s.width s.height
        (s.board - (s.tile_at (s.zero_index + 1)) <<< (s.bit_length * (s.zero_index + 1)) +
          (s.tile_at (s.zero_index + 1)) <<< (s.bit_length * s.zero_index))
        (s.zero_index + 1) (s.cost + 1) (some (s.board, 'L')) = s' :=
      Option.some.inj h
    exact ⟨hmv.2, rfl, rfl, rfl, rfl, rfl, rfl, rfl, hmv.1⟩

/-- `right` preserves the invariant. -/
theorem right_good (s s' : State) (hs : GoodState s) (h : s.right = some s') :
    GoodState s' ∧ s'.width = s.width ∧ s'.height = s.height ∧
    s'.bit_length = s.bit_length ∧ s'.cost = s.cost + 1 ∧
    s'.src = some (s.board, 'R') ∧ s'.zero_index = s.zero_index - 1 ∧
    s'.heuristic_value = heuristicValue s.bit_length s.width s.height s'.board ∧
    decodeBoard s.bit_length (s.width * s.height) s'.board =
      ((decodeBoard s.bit_length (s.width * s.height) s.board).set s.zero_index
        (s.tile_at (s.zero_index - 1))).set (s.zero_index - 1) 0 := by
  unfold State.right at h
  by_cases hg : s.zero_index % s.width = 0
  · rw [if_pos hg] at h
    exact absurd h (by simp)
  · rw [if_neg hg] at h
    obtain ⟨hw, hh, hbl, hz, hblt, hperm, ht0⟩ := hs
    have hz1 : 1 ≤ s.zero_index := by
      by_contra hc
      push_neg at hc
      interval_cases s.zero_index
      · exact hg (Nat.zero_mod _)
    have hlt : s.zero_index - 1 < s.width * s.height := by omega
    have hne : s.zero_index - 1 ≠ s.zero_index := by omega
    have hmv := moved_state_good s ⟨hw, hh, hbl, hz, hblt, hperm, ht0⟩
      (s.zero_index - 1) hlt hne (s.cost + 1) (some (s.board, 'R'))
    obtain rfl : State.new s.bit_length s.width s.height
        (s.board - (s.tile_at (s.zero_index - 1)) <<< (s.bit_length * (s.zero_index - 1)) +
          (s.tile_at (s.zero_index - 1)) <<< (s.bit_length * s.zero_index))
        (s.zero_index - 1) (s.cost + 1) (some (s.board, 'R')) = s' :=
      Option.some.inj h
    exact ⟨hmv.2, rfl, rfl, rfl, rfl, rfl, rfl, rfl, hmv.1⟩

/-- Any legal move preserves the invariant and the dimensions. -/
theorem applyMove_good (s : State) (m : Char) (s' : State) (hs : GoodState s)
    (h : applyMove s m = some s') :
    GoodState s' ∧ s'.width = s.width ∧ s'.height = s.height ∧
    s'.bit_length = s.bit_length ∧ s'.cost = s.cost + 1 := by
  unfold applyMove at h
  split_ifs at h
  · obtain ⟨hg, h1, h2, h3, h4, _⟩ := up_good s s' hs h
    exact ⟨hg, h1, h2, h3, h4⟩
  · obtain ⟨hg, h1, h2, h3, h4, _⟩ := down_good s s' hs h
    exact ⟨hg, h1, h2, h3, h4⟩
  · obtain ⟨hg, h1, h2, h3, h4, _⟩ := left_good s s' hs h
    exact ⟨hg, h1, h2, h3, h4⟩
  · obtain ⟨hg, h1, h2, h3, h4, _⟩ := right_good s s' hs h
    exact ⟨hg, h1, h2, h3, h4⟩

/-- When the list has no `0`, the blank-tracking sum contributes nothing. -/
theorem zeroIdx_enumFrom_of_not_mem (flat : List Nat) (h : 0 ∉ flat) :
    ∀ start, ((List.enumFrom start flat).map
      (fun kv => if kv.2 = 0 then kv.1 else 0)).sum = 0 := by
  induction flat with
  | nil => intro start; simp
  | cons x xs ih =>
    intro start
    have hx : x ≠ 0 := fun hc => h (hc ▸ List.mem_cons_self x xs)
    have hxs : 0 ∉ xs := fun hc => h (List.mem_cons_of_mem x hc)
    simp only [List.enumFrom_cons, List.map_cons, List.sum_cons, hx, if_false]
    rw [ih hxs (start + 1)]

/-- The source tracks the blank with `zero_index += i*width+j` for every
zero cell; on a list with exactly one `0` this is the index of the `0`. -/
theorem zeroIdx_enumFrom_unique (flat : List Nat) (h : List.count 0 flat = 1) :
    ∀ start, ((List.enumFrom start flat).map
      (fun kv => if kv.2 = 0 then kv.1 else 0)).sum = start + List.indexOf 0 flat := by
  induction flat with
  | nil => intro start; simp at h
  | cons x xs ih =>
    intro start
    by_cases hx : x = 0
    · subst hx
      have hxs : (0 : Nat) ∉ xs := by
        rw [List.count_cons] at h
        simp only [beq_self_eq_true, if_true] at h
        exact List.count_eq_zero.mp (by omega)
      simp only [List.enumFrom_cons, List.map_cons, List.sum_cons, List.indexOf_cons_self]
      rw [zeroIdx_enumFrom_of_not_mem xs hxs (start + 1)]
      simp
    · have hxs : List.count 0 xs = 1 := by
        rw [List.count_cons] at h
        simp only [beq_iff_eq, hx, if_false] at h
        omega
      simp only [List.enumFrom_cons, List.map_cons, List.sum_cons, hx, if_false,
        ih hxs (start + 1), List.indexOf_cons_ne xs hx]
      omega

theorem zeroIndexOf_eq_indexOf (flat : List Nat) (h : List.count 0 flat = 1) :
    zeroIndexOf flat = List.indexOf 0 flat := by
  have := zeroIdx_enumFrom_unique flat h 0
  simpa [zeroIndexOf, List.enum] using this

/-- A well-formed board has exactly one blank. -/
theorem wellFormed_count_zero (puz : List (List Nat)) (h : WellFormed puz) :
    List.count 0 (flatten puz) = 1 := by
  have hp := wellFormed_perm puz h
  rw [hp.count_eq]
  have hn : 0 < boardWidth puz * boardHeight puz := Nat.mul_pos h.2.1 h.1
  have hmem : (0 : Nat) ∈ List.range (boardWidth puz * boardHeight puz) :=
    List.mem_range.mpr hn
  exact List.count_eq_one_of_mem (List.nodup_range _) hmem

/-- The initial state of a well-formed board satisfies the invariant. -/
theorem initState_good (puz : List (List Nat)) (h : WellFormed puz) :
    GoodState (initState puz) := by
  obtain ⟨hh, hw, hrows, hlen, hmem⟩ := h
  have hcount := wellFormed_count_zero puz ⟨hh, hw, hrows, hlen, hmem⟩
  have hzi : zeroIndexOf (flatten puz) = List.indexOf 0 (flatten puz) :=
    zeroIndexOf_eq_indexOf _ hcount
  have h0mem : (0 : Nat) ∈ flatten puz := by
    apply hmem
    exact Nat.mul_pos hw hh
  have hzlt : zeroIndexOf (flatten puz) < boardWidth puz * boardHeight puz := by
    rw [hzi, ← hlen]
    exact List.indexOf_lt_length.mpr h0mem
  have hvlt := wellFormed_val_lt puz ⟨hh, hw, hrows, hlen, hmem⟩
  refine ⟨hw, hh, rfl, hzlt, ?_, ?_, ?_⟩
  · show packBoard (clog2 (boardWidth puz * boardHeight puz)) (flatten puz) <
      2 ^ (clog2 (boardWidth puz * boardHeight puz) * (boardWidth puz * boardHeight puz))
    rw [packBoard_eq_packList]
    have hp := packList_lt (clog2 (boardWidth puz * boardHeight puz)) (flatten puz) hvlt
    rwa [hlen] at hp
  · show (decodeBoard (clog2 (boardWidth puz * boardHeight puz))
        (boardWidth puz * boardHeight puz)
        (packBoard (clog2 (boardWidth puz * boardHeight puz)) (flatten puz))).Perm
      (List.range (boardWidth puz * boardHeight puz))
    rw [packBoard_eq_packList, decode_packList _ _ _ hlen hvlt]
    exact wellFormed_perm puz ⟨hh, hw, hrows, hlen, hmem⟩
  · show tileAt (clog2 (boardWidth puz * boardHeight puz))
      (packBoard (clog2 (boardWidth puz * boardHeight puz)) (flatten puz))
      (zeroIndexOf (flatten puz)) = 0
    rw [packBoard_eq_packList, tileAt_packList _ _ hvlt, hzi]
    have hlt2 : List.indexOf 0 (flatten puz) < (flatten puz).length :=
      List.indexOf_lt_length.mpr h0mem
    rw [List.getD_eq_getElem?_getD, List.getElem?_eq_getElem hlt2]
    simp [List.getElem_indexOf]

/-- C10: every state reachable in the search — the initial state built
from a well-formed board and any state produced by a legal
up/down/left/right move — satisfies the invariant `GoodState`; in
particular the cell at its recorded `zero_index` decodes to `0` and its
decoded board is a permutation of `0, …, width*height-1`. -/
theorem search_states_invariant :
    (∀ puz, WellFormed puz → GoodState (initState puz)) ∧
    (∀ s m s', GoodState s → applyMove s m = some s' → GoodState s') ∧
    (∀ s, GoodState s →
      tileAt s.bit_length s.board s.zero_index = 0 ∧
      (decodeBoard s.bit_length (s.width * s.height) s.board).Perm
        (List.range (s.width * s.height))) :=
  ⟨fun puz h => initState_good puz h,
   fun s m s' hs h => (applyMove_good s m s' hs h).1,
   fun _ hs => ⟨hs.2.2.2.2.2.2, hs.2.2.2.2.2.1⟩⟩

/-- Witness for C10 at the board `[[1,2],[0,3]]` and a legal move. -/
theorem search_states_invariant_witness :
    WellFormed [[1,2],[0,3]] ∧ GoodState (initState [[1,2],[0,3]]) :=
  ⟨by decide, search_states_invariant.1 [[1,2],[0,3]] (by decide)⟩

/-! ## The solvability formula of the specification (C6) -/

/-- Inversion count as the claim describes it: pairs `i < j` with
`value[j] < value[i]`, written as an explicit double loop over indices
(this definition follows the spec's words, for comparison with the
source's `countInversions`). -/
def specInversions (l : List Nat) : Nat :=
  ((List.range l.length).map (fun i =>
    ((pyRange (i + 1) l.length).map (fun j =>
      if l.getD j 0 < l.getD i 0 then 1 else 0)).sum)).sum

/-- The solvability rule as the claim states it (this definition follows
the spec's words): remove the blank from the row-major flattening, count
inversions; odd width ⇒ solvable iff inversions even; even width ⇒
solvable iff inversions plus `(height-1) - blank_index/width` is even. -/
def specSolvable (puz : List (List Nat)) : Bool :=
  let w := boardWidth puz
  let h := boardHeight puz
  let flat := flatten puz
  let inv := specInversions (flat.filter (fun v => v != 0))
  let blank_index := List.indexOf 0 flat
  if w % 2 = 1 then inv % 2 = 0
  else (inv + ((h - 1) - blank_index / w)) % 2 = 0

theorem pyRange_succ_succ (a b : Nat) :
    pyRange (a + 1) (b + 1) = (pyRange a b).map (fun k => k + 1) := by
  unfold pyRange
  rw [Nat.succ_sub_succ, List.map_map]
  apply List.map_congr_left
  intro k _
  simp only [Function.comp_apply]
  omega

theorem sum_ite_lt (l : List Nat) (x : Nat) :
    (l.map (fun v => if v < x then 1 else 0)).sum = (l.filter (fun y => y < x)).length := by
  induction l with
  | nil => rfl
  | cons v rest ih =>
    by_cases hv : v < x
    · simp [hv, ih, List.filter_cons, Nat.add_comm]
    · simp [hv, ih, List.filter_cons]

theorem range_sum_ite_lt (xs : List Nat) (x : Nat) :
    ((List.range xs.length).map (fun k => if xs.getD k 0 < x then 1 else 0)).sum =
      (xs.filter (fun y => y < x)).length := by
  have h1 : (fun k => if xs.getD k 0 < x then (1 : Nat) else 0) =
      (fun v => if v < x then (1 : Nat) else 0) ∘ (fun k => xs.getD k 0) := rfl
  rw [h1, ← List.map_map, map_getD_range, sum_ite_lt]

/-- The spec's double-loop inversion count equals the source's. -/
theorem specInversions_eq (l : List Nat) : specInversions l = countInversions l := by
  induction l with
  | nil => rfl
  | cons x xs ih =>
    unfold specInversions countInversions
    rw [List.length_cons, List.range_succ_eq_map, List.map_cons, List.sum_cons, List.map_map]
    have hhead : ((pyRange (0 + 1) (xs.length + 1)).map (fun j =>
        if (x :: xs).getD j 0 < (x :: xs).getD 0 0 then 1 else 0)).sum =
        (xs.filter (fun y => y < x)).length := by
      rw [pyRange_succ_succ, List.map_map]
      have h2 : pyRange 0 xs.length = List.range xs.length := by
        unfold pyRange
        simp
      rw [h2]
      rw [← range_sum_ite_lt xs x]
      apply congrArg
      apply List.map_congr_left
      intro k _
      simp [List.getD_cons_succ, List.getD_cons_zero]
    have htail : ((List.range xs.length).map ((fun i =>
        ((pyRange (i + 1) (xs.length + 1)).map (fun j =>
          if (x :: xs).getD j 0 < (x :: xs).getD i 0 then 1 else 0)).sum) ∘ Nat.succ)).sum =
        specInversions xs := by
      unfold specInversions
      apply congrArg
      apply List.map_congr_left
      intro i _
      show ((pyRange (i + 1 + 1) (xs.length + 1)).map (fun j =>
        if (x :: xs).getD j 0 < (x :: xs).getD (i + 1) 0 then 1 else 0)).sum = _
      rw [pyRange_succ_succ, List.map_map]
      apply congrArg
      apply List.map_congr_left
      intro k _
      simp [List.getD_cons_succ]
    rw [hhead, htail, ih]

/-- Removing the entry at the blank's position equals removing the blank
by value, when the list holds exactly one `0` and position `zi` holds it. -/
theorem eraseIdx_eq_filter (flat : List Nat) (zi : Nat) (hlt : zi < flat.length)
    (hz : flat.getD zi 0 = 0) (hcount : List.count 0 flat = 1) :
    flat.eraseIdx zi = flat.filter (fun v => v != 0) := by
  have hsplit : flat = flat.take zi ++ 0 :: flat.drop (zi + 1) := by
    have hd : flat.drop zi = flat[zi] :: flat.drop (zi + 1) := List.drop_eq_getElem_cons hlt
    have hget : flat[zi] = 0 := by
      rw [List.getD_eq_getElem?_getD, List.getElem?_eq_getElem hlt] at hz
      simpa using hz
    rw [← hget, ← hd, List.take_append_drop]
  have hlenA : (flat.take zi).length = zi := List.length_take_of_le (by omega)
  have hcA : List.count 0 (flat.take zi) = 0 ∧ List.count 0 (flat.drop (zi + 1)) = 0 := by
    have h2 : List.count 0 (flat.take zi ++ 0 :: flat.drop (zi + 1)) = 1 := by
      rw [← hsplit]
      exact hcount
    rw [List.count_append, List.count_cons] at h2
    simp only [beq_self_eq_true, if_true] at h2
    constructor <;> omega
  have hnA : (0 : Nat) ∉ flat.take zi := List.count_eq_zero.mp hcA.1
  have hnB : (0 : Nat) ∉ flat.drop (zi + 1) := List.count_eq_zero.mp hcA.2
  calc flat.eraseIdx zi
      = (flat.take zi ++ 0 :: flat.drop (zi + 1)).eraseIdx zi := by rw [← hsplit]
    _ = flat.take zi ++ flat.drop (zi + 1) := by
        rw [List.eraseIdx_append_of_length_le (by omega)]
        congr 1
        have : zi - (flat.take zi).length = 0 := by omega
        rw [this, List.eraseIdx_cons_zero]
    _ = (flat.take zi).filter (fun v => v != 0) ++
          (0 :: flat.drop (zi + 1)).filter (fun v => v != 0) := by
        rw [List.filter_cons]
        simp only [bne_self_eq_false, Bool.false_eq_true, if_false]
        congr 1
        · refine (List.filter_eq_self.mpr ?_).symm
          intro a ha
          simp only [bne_iff_ne, ne_eq]
          exact fun hc => hnA (hc ▸ ha)
        · refine (List.filter_eq_self.mpr ?_).symm
          intro a ha
          simp only [bne_iff_ne, ne_eq]
          exact fun hc => hnB (hc ▸ ha)
    _ = flat.filter (fun v => v != 0) := by
        rw [← List.filter_append, ← hsplit]

/-- C6: for every well-formed board, `is_solvable` computes exactly the
parity rule the claim describes: with the blank removed from the row-major
flattening, odd width ⇒ inversions even; even width ⇒ inversions plus
`(height-1) - blank_index/width` even. -/
theorem is_solvable_matches_spec (puz : List (List Nat)) (h : WellFormed puz) :
    (initState puz).is_solvable = specSolvable puz := by
  obtain ⟨hh, hw, hrows, hlen, hmem⟩ := h
  have hcount := wellFormed_count_zero puz ⟨hh, hw, hrows, hlen, hmem⟩
  have hzi : zeroIndexOf (flatten puz) = List.indexOf 0 (flatten puz) :=
    zeroIndexOf_eq_indexOf _ hcount
  have h0mem : (0 : Nat) ∈ flatten puz := hmem 0 (Nat.mul_pos hw hh)
  have hzlt : zeroIndexOf (flatten puz) < (flatten puz).length := by
    rw [hzi]
    exact List.indexOf_lt_length.mpr h0mem
  have hmap : (List.range (boardWidth puz * boardHeight puz)).map
      (initState puz).tile_at = flatten puz := by
    calc (List.range (boardWidth puz * boardHeight puz)).map (initState puz).tile_at
        = (List.range (boardWidth puz * boardHeight puz)).map
            (fun i => (flatten puz).getD i 0) := by
          apply List.map_congr_left
          intro i _
          exact initState_tile_at puz ⟨hh, hw, hrows, hlen, hmem⟩ i
      _ = flatten puz := by rw [← hlen, map_getD_range]
  have hgz : (flatten puz).getD (zeroIndexOf (flatten puz)) 0 = 0 := by
    rw [hzi, List.getD_eq_getElem?_getD, List.getElem?_eq_getElem (hzi ▸ hzlt)]
    simp [List.getElem_indexOf]
  have hW : (initState puz).width = boardWidth puz := rfl
  have hH : (initState puz).height = boardHeight puz := rfl
  have hZ : (initState puz).zero_index = zeroIndexOf (flatten puz) := rfl
  show State.is_solvable (initState puz) = specSolvable puz
  unfold State.is_solvable specSolvable
  simp only [hW, hH, hZ, hmap]
  rw [eraseIdx_eq_filter (flatten puz) (zeroIndexOf (flatten puz)) hzlt hgz hcount]
  rw [specInversions_eq, hzi]

/-- Witness for C6 at the concrete board `[[1,2],[0,3]]`. -/
theorem is_solvable_matches_spec_witness :
    WellFormed [[1,2],[0,3]] ∧
    (initState [[1,2],[0,3]]).is_solvable = specSolvable [[1,2],[0,3]] :=
  ⟨by decide, is_solvable_matches_spec [[1,2],[0,3]] (by decide)⟩

/-! ## The heap operations permute their contents -/

/-- Generalised two-position update permutation: writing position `j`'s
value into position `i` and then overwriting position `j` is, up to
permutation, just overwriting position `i`. -/
theorem set_set_perm' {α : Type} [DecidableEq α] (l : List α) (d : α) (i j : Nat) (x : α)
    (hi : i < l.length) (hj : j < l.length) (hij : i ≠ j) :
    ((l.set i (l.getD j d)).set j x).Perm (l.set i x) := by
  rw [List.perm_iff_count]
  intro a
  have hj' : j < (l.set i (l.getD j d)).length := by simpa using hj
  have hset : (l.set i (l.getD j d))[j] = l[j] := by
    have h1 : (l.set i (l.getD j d))[j]? = l[j]? := List.getElem?_set_ne hij
    rw [List.getElem?_eq_getElem hj, List.getElem?_eq_getElem hj'] at h1
    exact Option.some.inj h1
  have hgj : l.getD j d = l[j] := by
    rw [List.getD_eq_getElem?_getD, List.getElem?_eq_getElem hj]
    rfl
  rw [List.count_set _ _ _ _ hj', List.count_set _ _ _ _ hi,
    List.count_set _ _ _ _ hi, hset, hgj]
  have hci : (if (l[i] == a) = true then 1 else 0) ≤ List.count a l := by
    by_cases h : (l[i] == a) = true
    · simp only [h, if_true]
      exact List.count_pos_iff.mpr (by rw [← eq_of_beq h]; exact l.getElem_mem hi)
    · simp [h]
  have hcj : (if (l[j] == a) = true then 1 else 0) ≤ List.count a l := by
    by_cases h : (l[j] == a) = true
    · simp only [h, if_true]
      exact List.count_pos_iff.mpr (by rw [← eq_of_beq h]; exact l.getElem_mem hj)
    · simp [h]
  omega

theorem siftdownAux_perm (fuel : Nat) :
    ∀ (heap : List State) (startpos pos : Nat) (item : State), pos < heap.length →
      (siftdownAux fuel heap startpos pos item).Perm (heap.set pos item) := by
  induction fuel with
  | zero => intro heap sp pos item _; exact List.Perm.refl _
  | succ f ih =>
    intro heap sp pos item hpos
    show siftdownAux (f + 1) heap sp pos item |>.Perm _
    unfold siftdownAux
    by_cases h1 : sp < pos
    · rw [if_pos h1]
      by_cases h2 : item.priority < (lget heap ((pos - 1) / 2)).priority
      · rw [if_pos h2]
        have hpp : (pos - 1) / 2 < pos := by
          have : (pos - 1) / 2 ≤ pos - 1 := Nat.div_le_self _ _
          omega
        have hpp2 : (pos - 1) / 2 < (heap.set pos (lget heap ((pos - 1) / 2))).length := by
          simp
          omega
        have hperm := ih (heap.set pos (lget heap ((pos - 1) / 2))) sp ((pos - 1) / 2) item hpp2
        refine hperm.trans ?_
        exact set_set_perm' heap dummyState pos ((pos - 1) / 2) item hpos (by omega) (by omega)
      · rw [if_neg h2]
    · rw [if_neg h1]

theorem siftupAux_perm (fuel : Nat) :
    ∀ (heap : List State) (startpos pos : Nat) (item : State), pos < heap.length →
      (siftupAux fuel heap startpos pos item).Perm (heap.set pos item) := by
  induction fuel with
  | zero =>
    intro heap sp pos item hpos
    exact siftdownAux_perm (pos + 1) heap sp pos item hpos
  | succ f ih =>
    intro heap sp pos item hpos
    show siftupAux (f + 1) heap sp pos item |>.Perm _
    unfold siftupAux
    by_cases h1 : 2 * pos + 1 < heap.length
    · simp only [if_pos h1]
      set c := if 2 * pos + 1 + 1 < heap.length ∧
          ¬ (lget heap (2 * pos + 1)).priority < (lget heap (2 * pos + 1 + 1)).priority then
          2 * pos + 1 + 1
        else 2 * pos + 1 with hc
      have hclt : c < heap.length := by
        rw [hc]
        split_ifs with hcond
        · exact hcond.1
        · exact h1
      have hcgt : pos < c := by
        rw [hc]
        split_ifs <;> omega
      have hlen : c < (heap.set pos (lget heap c)).length := by simpa using hclt
      have hperm := ih (heap.set pos (lget heap c)) sp c item hlen
      refine hperm.trans ?_
      exact set_set_perm' heap dummyState pos c item hpos hclt (by omega)
    · simp only [if_neg h1]
      exact siftdownAux_perm (pos + 1) heap sp pos item hpos

theorem set_append_last (l : List State) (a : State) :
    (l ++ [a]).set l.length a = l ++ [a] := by
  apply List.ext_getElem?
  intro j
  rw [List.getElem?_set]
  by_cases h : l.length = j
  · subst h
    simp [List.getElem?_append_right (Nat.le_refl _)]
  · simp [h]

/-- `heappush` adds exactly the pushed item. -/
theorem heappush_perm (heap : List State) (item : State) :
    (heappush heap item).Perm (item :: heap) := by
  unfold heappush
  have h1 := siftdownAux_perm (heap.length + 1) (heap ++ [item]) 0 heap.length item
    (by simp)
  rw [set_append_last] at h1
  exact h1.trans (List.perm_append_singleton _ _)

/-- `heappop` removes exactly the returned item. -/
theorem heappop_perm (heap : List State) (x : State) (rest : List State)
    (h : heappop heap = some (x, rest)) : heap.Perm (x :: rest) := by
  cases heap with
  | nil => simp [heappop] at h
  | cons y ys =>
    simp only [heappop] at h
    rcases hd : (y :: ys).dropLast with _ | ⟨z, zs⟩
    · rw [hd] at h
      simp only [Option.some.injEq, Prod.mk.injEq] at h
      obtain ⟨hx, hrest⟩ := h
      have hys : ys = [] := by
        cases ys with
        | nil => rfl
        | cons a as => simp at hd
      subst hys
      subst hrest
      have hg : (y :: ([] : List State)).getLastD dummyState = y := by simp
      rw [hg] at hx
      subst hx
      exact List.Perm.refl _
    · rw [hd] at h
      simp only [Option.some.injEq, Prod.mk.injEq] at h
      obtain ⟨hx, hrest⟩ := h
      subst hx
      set lastelt := (y :: ys).getLastD dummyState with hle
      have hlast : (y :: ys).dropLast ++ [lastelt] = y :: ys := by
        rw [hle, List.getLastD_eq_getLast?, List.getLast?_eq_getLast _ (by simp)]
        exact List.dropLast_append_getLast _
      have hperm1 : rest.Perm (lastelt :: zs) := by
        rw [← hrest]
        have h2 := siftupAux_perm (z :: zs).length ((z :: zs).set 0 lastelt) 0 0 lastelt
          (by simp)
        rw [List.set_set] at h2
        simpa using h2
      have hperm2 : (y :: ys).Perm ((z :: zs) ++ [lastelt]) := by
        rw [hd] at hlast
        rw [← hlast]
      have h3 : ((z :: zs) ++ [lastelt]).Perm (z :: lastelt :: zs) :=
        List.Perm.cons z (List.perm_append_singleton _ _)
      exact hperm2.trans (h3.trans (List.Perm.cons z hperm1.symm))

/-! ## The closed dict records the latest pop per board -/

theorem dictGet_dictSet_self (c : Closed) (k : Nat) (v : Option (Nat × Char)) :
    dictGet? (dictSet c k v) k = some v := by
  induction c with
  | nil => simp [dictSet, dictGet?]
  | cons e rest ih =>
    obtain ⟨k', v'⟩ := e
    by_cases h : k' = k
    · simp [dictSet, dictGet?, h]
    · simp [dictSet, dictGet?, h, ih]

theorem dictGet_dictSet_ne (c : Closed) (k b : Nat) (v : Option (Nat × Char)) (h : k ≠ b) :
    dictGet? (dictSet c k v) b = dictGet? c b := by
  induction c with
  | nil => simp [dictSet, dictGet?, h]
  | cons e rest ih =>
    obtain ⟨k', v'⟩ := e
    by_cases h2 : k' = k
    · subst h2
      simp [dictSet, dictGet?, h]
    · by_cases h3 : k' = b
      · simp [dictSet, dictGet?, h2, h3, Ne.symm h]
      · simp [dictSet, dictGet?, h2, h3, ih]

theorem searchLoopT_last (fuel : Nat) :
    ∀ (opn : List State) (closed : Closed) (log : List (Nat × Option (Nat × Char))) (cnt : Nat),
      (∀ b, dictGet? closed b =
        ((log.filter (fun e => e.1 == b)).getLast?).map Prod.snd) →
      ∀ b, dictGet? (searchLoopT fuel opn closed log cnt).2.2.2 b =
        (((searchLoopT fuel opn closed log cnt).2.1.filter
          (fun e => e.1 == b)).getLast?).map Prod.snd := by
  induction fuel with
  | zero => intro opn closed log cnt hbase b; exact hbase b
  | succ f ih =>
    intro opn closed log cnt hbase b
    show dictGet? (searchLoopT (f + 1) opn closed log cnt).2.2.2 b = _
    unfold searchLoopT
    cases hpop : heappop opn with
    | none => exact hbase b
    | some pr =>
      obtain ⟨current, opn'⟩ := pr
      have hstep : ∀ b', dictGet? (dictSet closed current.board current.src) b' =
          (((log ++ [(current.board, current.src)]).filter
            (fun e => e.1 == b')).getLast?).map Prod.snd := by
        intro b'
        rw [List.filter_append]
        by_cases hb : current.board = b'
        · subst hb
          rw [dictGet_dictSet_self]
          simp [List.getLast?_concat]
        · rw [dictGet_dictSet_ne _ _ _ _ hb, hbase b']
          have hone : (([(current.board, current.src)] :
              List (Nat × Option (Nat × Char))).filter (fun e => e.1 == b')) = [] := by
            simp only [List.filter_cons, List.filter_nil]
            rw [if_neg (by simp [hb])]
          rw [hone, List.append_nil]
      by_cases hh : current.heuristic_value = 0
      · simp only [hh, if_true]
        cases reconstruct (dictSet closed current.board current.src) current.board
            ((dictSet closed current.board current.src).length + 1) with
        | none => exact hstep b
        | some trail => exact hstep b
      · simp only [hh, if_false]
        exact ih _ _ _ _ hstep b

/-- C4 amended: every popped entry is recorded into `closed`
unconditionally (the source has no membership check at pop time), so for
every board the final closed dict holds exactly the predecessor/move of
the most recent pop of that board — the last-settled entry, not the
first-settled one. -/
theorem closed_retains_last_settled (puz : List (List Nat)) (fuel : Nat) (b : Nat) :
    dictGet? (solveT puz fuel).2.2.2 b =
      (((solveT puz fuel).2.1.filter (fun e => e.1 == b)).getLast?).map Prod.snd := by
  unfold solveT
  by_cases h : (initState puz).is_solvable
  · simp only [h, if_true]
    exact searchLoopT_last fuel [initState puz] [] [] 0 (fun b' => rfl) b
  · simp only [h, if_false]
    rfl

/-! ## The heuristic is zero exactly on the solved board -/

theorem absDiff_eq_zero {a b : Nat} (h : absDiff a b = 0) : a = b := by
  unfold absDiff at h
  omega

theorem absDiff_self (a : Nat) : absDiff a a = 0 := by
  unfold absDiff
  omega

theorem solvedFlat_length (n : Nat) (hn : 0 < n) : (solvedFlat n).length = n := by
  unfold solvedFlat
  simp
  omega

theorem solvedFlat_getD (n idx : Nat) (hn : 0 < n) (h : idx < n) :
    (solvedFlat n).getD idx 0 = if idx = n - 1 then 0 else idx + 1 := by
  unfold solvedFlat
  by_cases he : idx = n - 1
  · subst he
    rw [List.getD_eq_getElem?_getD, List.getElem?_append_right (by simp)]
    simp
  · rw [List.getD_eq_getElem?_getD, List.getElem?_append]
    rw [if_pos (by simp; omega), List.getElem?_map, List.getElem?_range (by omega)]
    simp [he]

/-- If the running heuristic sum is `0`, every cell holds its goal value
(the last cell needs the decoded values to be below `n`, which the state
invariant provides). -/
theorem heuristic_zero_cells (bl w h b : Nat) (hw : 0 < w) (hh : 0 < h)
    (hz : heuristicValue bl w h b = 0) :
    ∀ i < h, ∀ j < w,
      (tileAt bl b (i * w + j) = 0 → i = h - 1 ∧ j = w - 1) ∧
      (tileAt bl b (i * w + j) ≠ 0 → tileAt bl b (i * w + j) = i * w + j + 1) := by
  intro i hi j hj
  have hcell : cellH bl w h b i j = 0 := by
    unfold heuristicValue at hz
    rw [List.sum_eq_zero_iff] at hz
    have hrow := hz (((List.range w).map (fun j => cellH bl w h b i j)).sum)
      (List.mem_map.mpr ⟨i, List.mem_range.mpr hi, rfl⟩)
    rw [List.sum_eq_zero_iff] at hrow
    exact hrow _ (List.mem_map.mpr ⟨j, List.mem_range.mpr hj, rfl⟩)
  unfold cellH at hcell
  by_cases hv : tileAt bl b (i * w + j) = 0
  · rw [if_pos hv] at hcell
    refine ⟨fun _ => ⟨absDiff_eq_zero (by omega), absDiff_eq_zero (by omega)⟩,
      fun hc => absurd hv hc⟩
  · rw [if_neg hv] at hcell
    simp only [] at hcell
    refine ⟨fun hc => absurd hc hv, fun _ => ?_⟩
    set t := tileAt bl b (i * w + j) with ht
    have hA : absDiff i ((t - 1) / w) = 0 := by omega
    have hB : absDiff j ((t - 1) % w) = 0 := by omega
    have hdi := absDiff_eq_zero hA
    have hdj := absDiff_eq_zero hB
    have hdm : w * ((t - 1) / w) + (t - 1) % w = t - 1 := Nat.div_add_mod _ _
    have hprod : i * w = w * ((t - 1) / w) := by
      rw [hdi]
      ring
    omega

/-- On the solved board every cell contributes `0` to the heuristic. -/
theorem heuristic_of_solved (bl w h b : Nat) (hw : 0 < w) (hh : 0 < h)
    (hcells : ∀ idx < w * h,
      tileAt bl b idx = if idx = w * h - 1 then 0 else idx + 1) :
    heuristicValue bl w h b = 0 := by
  unfold heuristicValue
  rw [List.sum_eq_zero_iff]
  intro x hx
  obtain ⟨i, hi, rfl⟩ := List.mem_map.mp hx
  rw [List.sum_eq_zero_iff]
  intro y hy
  obtain ⟨j, hj, rfl⟩ := List.mem_map.mp hy
  rw [List.mem_range] at hi hj
  have hidx : i * w + j < w * h := by
    have h1 : i + 1 ≤ h := hi
    have h2 : (i + 1) * w ≤ h * w := Nat.mul_le_mul_right _ h1
    have h3 : (i + 1) * w = i * w + w := by ring
    have h4 : h * w = w * h := by ring
    omega
  have hval := hcells (i * w + j) hidx
  unfold cellH
  by_cases hlast : i * w + j = w * h - 1
  · rw [if_pos hlast] at hval
    obtain ⟨h', rfl⟩ : ∃ h', h = h' + 1 := ⟨h - 1, by omega⟩
    have hprod : w * (h' + 1) = h' * w + w := by ring
    have hle1 : h' * w ≤ i * w := by omega
    have hile : h' ≤ i := Nat.le_of_mul_le_mul_right hle1 hw
    have hieq : i = h' := by omega
    have hiw : i * w = h' * w := by rw [hieq]
    have hjeq : j = w - 1 := by omega
    subst hieq
    subst hjeq
    rw [hval]
    simp [absDiff]
  · rw [if_neg hlast] at hval
    rw [hval]
    have hvz : i * w + j + 1 ≠ 0 := by omega
    rw [if_neg hvz]
    have e1 : i * w + j = w * i + j := by ring
    have hdi : (i * w + j + 1 - 1) / w = i := by
      simp only [Nat.add_sub_cancel, e1, Nat.mul_add_div hw, Nat.div_eq_of_lt hj,
        Nat.add_zero]
    have hdj : (i * w + j + 1 - 1) % w = j := by
      simp only [Nat.add_sub_cancel, e1, Nat.mul_add_mod, Nat.mod_eq_of_lt hj]
    rw [hdi, hdj]
    have hcond : ¬ (i = i ∧ j < j) := by omega
    show (if i = i ∧ j < j then conflictScan bl w b i j else 0) +
      absDiff i i + absDiff j j = 0
    rw [if_neg hcond, absDiff_self, absDiff_self]

/-- The heuristic vanishes exactly on the canonical solved configuration
(for boards whose decoding is a permutation of `0, …, n-1`). -/
theorem heuristicValue_zero_iff (bl w h b : Nat) (hw : 0 < w) (hh : 0 < h)
    (hperm : (decodeBoard bl (w * h) b).Perm (List.range (w * h))) :
    heuristicValue bl w h b = 0 ↔ decodeBoard bl (w * h) b = solvedFlat (w * h) := by
  have hn : 0 < w * h := Nat.mul_pos hw hh
  constructor
  · intro hz
    have hcells := heuristic_zero_cells bl w h b hw hh hz
    have hvlt : ∀ idx < w * h, tileAt bl b idx < w * h := by
      intro idx hidx
      have hmem : tileAt bl b idx ∈ decodeBoard bl (w * h) b :=
        List.mem_map.mpr ⟨idx, List.mem_range.mpr hidx, rfl⟩
      have := hperm.mem_iff.mp hmem
      exact List.mem_range.mp this
    have hpoint : ∀ idx < w * h,
        tileAt bl b idx = if idx = w * h - 1 then 0 else idx + 1 := by
      intro idx hidx
      have hi : idx / w < h := by
        rw [Nat.div_lt_iff_lt_mul hw]
        calc idx < w * h := hidx
          _ = h * w := by ring
      have hj : idx % w < w := Nat.mod_lt _ hw
      have hidx2 : idx / w * w + idx % w = idx := by
        rw [Nat.mul_comm]
        exact Nat.div_add_mod idx w
      have hc := hcells (idx / w) hi (idx % w) hj
      rw [hidx2] at hc
      by_cases hv : tileAt bl b idx = 0
      · obtain ⟨hieq, hjeq⟩ := hc.1 hv
        have hlast : idx = w * h - 1 := by
          obtain ⟨h', rfl⟩ : ∃ h', h = h' + 1 := ⟨h - 1, by omega⟩
          have h1 : idx / w * w = (h' + 1 - 1) * w := by rw [hieq]
          have h2 : (h' + 1 - 1) * w = h' * w := by norm_num
          have h3 : w * (h' + 1) = h' * w + w := by ring
          omega
        rw [hv, if_pos hlast]
      · have := hc.2 hv
        rw [this]
        have hne : idx ≠ w * h - 1 := by
          intro hcon
          have := hvlt idx hidx
          omega
        rw [if_neg hne]
    apply List.ext_getElem?
    intro idx
    by_cases hidx : idx < w * h
    · rw [List.getElem?_eq_getElem (by rw [decode_length]; exact hidx),
        List.getElem?_eq_getElem (by rw [solvedFlat_length _ hn]; exact hidx)]
      have h1 : (decodeBoard bl (w * h) b).getD idx 0 = tileAt bl b idx :=
        decode_getD _ _ _ _ hidx
      have h2 : (solvedFlat (w * h)).getD idx 0 = if idx = w * h - 1 then 0 else idx + 1 :=
        solvedFlat_getD _ _ hn hidx
      rw [List.getD_eq_getElem?_getD, List.getElem?_eq_getElem
        (by rw [decode_length]; exact hidx)] at h1
      rw [List.getD_eq_getElem?_getD, List.getElem?_eq_getElem
        (by rw [solvedFlat_length _ hn]; exact hidx)] at h2
      simp only [Option.getD_some] at h1 h2
      rw [h1, h2, hpoint idx hidx]
    · rw [List.getElem?_eq_none (by rw [decode_length]; omega),
        List.getElem?_eq_none (by rw [solvedFlat_length _ hn]; omega)]
  · intro hsolved
    apply heuristic_of_solved bl w h b hw hh
    intro idx hidx
    have h1 : (decodeBoard bl (w * h) b).getD idx 0 = tileAt bl b idx :=
      decode_getD _ _ _ _ hidx
    rw [hsolved, solvedFlat_getD _ _ hn hidx] at h1
    omega

/-! ## Board-level move semantics

The board produced by a move is a function of the packed board alone
(the blank position is determined by the board under the invariant), which
lets the search invariants speak about boards instead of `State` values. -/

/-- The new blank position of a move, `none` when the guard rejects it. -/
def moveTarget (w h z : Nat) (m : Char) : Option Nat :=
  if m = 'U' then (if z / w = h - 1 then none else some (z + w))
  else if m = 'D' then (if z / w = 0 then none else some (z - w))
  else if m = 'L' then (if z % w = w - 1 then none else some (z + 1))
  else if m = 'R' then (if z % w = 0 then none else some (z - 1))
  else none

/-- The packed-board update common to the four moves. -/
def moveBoardF (bl b z nz : Nat) : Nat :=
  b - (tileAt bl b nz) <<< (bl * nz) + (tileAt bl b nz) <<< (bl * z)

theorem applyMove_board_eq (s : State) (m : Char) :
    (applyMove s m).map State.board =
      (moveTarget s.width s.height s.zero_index m).map
        (moveBoardF s.bit_length s.board s.zero_index) ∧
    (applyMove s m).map State.zero_index = moveTarget s.width s.height s.zero_index m := by
  unfold applyMove moveTarget State.up State.down State.left State.right moveBoardF
  constructor <;> (split_ifs <;> simp [State.new, State.tile_at])

/-- Under the invariant, `zero_index` is determined by the packed board. -/
theorem good_zero_eq (s : State) (hs : GoodState s) :
    s.zero_index =
      List.indexOf 0 (decodeBoard s.bit_length (s.width * s.height) s.board) := by
  obtain ⟨hw, hh, _, hz, _, hperm, ht0⟩ := hs
  set vals := decodeBoard s.bit_length (s.width * s.height) s.board with hvals
  have hnodup : vals.Nodup := hperm.nodup_iff.mpr (List.nodup_range _)
  have hlen : vals.length = s.width * s.height := decode_length _ _ _
  have h0mem : (0 : Nat) ∈ vals :=
    hperm.mem_iff.mpr (List.mem_range.mpr (Nat.mul_pos hw hh))
  have hidx : List.indexOf 0 vals < vals.length := List.indexOf_lt_length.mpr h0mem
  have hzlt : s.zero_index < vals.length := by omega
  have hgetz : vals[s.zero_index] = 0 := by
    have := decode_getD s.bit_length (s.width * s.height) s.board s.zero_index hz
    rw [← hvals] at this
    rw [List.getD_eq_getElem?_getD, List.getElem?_eq_getElem hzlt] at this
    simpa [ht0] using this
  have hgeti : vals[List.indexOf 0 vals] = 0 := List.getElem_indexOf hidx
  exact (hnodup.getElem_inj_iff.mp (by rw [hgetz, hgeti])).symm

/-- The board-level successor function. -/
def boardMove (bl w h b : Nat) (m : Char) : Option Nat :=
  (moveTarget w h (List.indexOf 0 (decodeBoard bl (w * h) b)) m).map
    (moveBoardF bl b (List.indexOf 0 (decodeBoard bl (w * h) b)))

/-- Well-formedness of a bare board value. -/
def GoodBoard (bl w h b : Nat) : Prop :=
  0 < w ∧ 0 < h ∧ bl = clog2 (w * h) ∧ b < 2 ^ (bl * (w * h)) ∧
  (decodeBoard bl (w * h) b).Perm (List.range (w * h)) ∧
  tileAt bl b (List.indexOf 0 (decodeBoard bl (w * h) b)) = 0

theorem goodState_goodBoard (s : State) (hs : GoodState s) :
    GoodBoard s.bit_length s.width s.height s.board := by
  obtain ⟨hw, hh, hbl, hz, hlt, hperm, ht0⟩ := hs
  refine ⟨hw, hh, hbl, hlt, hperm, ?_⟩
  rw [← good_zero_eq s ⟨hw, hh, hbl, hz, hlt, hperm, ht0⟩]
  exact ht0

/-- A move computed on any invariant-satisfying state depends only on its
packed board. -/
theorem applyMove_boardMove (s : State) (m : Char) (hs : GoodState s) :
    (applyMove s m).map State.board = boardMove s.bit_length s.width s.height s.board m := by
  have h1 := (applyMove_board_eq s m).1
  rw [h1, boardMove, ← good_zero_eq s hs]

/-! ## Search-loop invariants -/

theorem dictGet_dictSet_inv (c : Closed) (k b : Nat) (v₀ v : Option (Nat × Char))
    (h : dictGet? (dictSet c k v₀) b = some v) :
    (b = k ∧ v = v₀) ∨ (b ≠ k ∧ dictGet? c b = some v) := by
  by_cases hbk : b = k
  · subst hbk
    rw [dictGet_dictSet_self] at h
    exact Or.inl ⟨rfl, (Option.some.inj h).symm⟩
  · rw [dictGet_dictSet_ne _ _ _ _ (fun hc => hbk hc.symm)] at h
    exact Or.inr ⟨hbk, h⟩

theorem dict_dom_mono (c : Closed) (k b : Nat) (v : Option (Nat × Char))
    (h : (dictGet? c b).isSome) : (dictGet? (dictSet c k v) b).isSome := by
  by_cases hbk : b = k
  · subst hbk
    rw [dictGet_dictSet_self]
    rfl
  · rw [dictGet_dictSet_ne _ _ _ _ (fun hc => hbk hc.symm)]
    exact h

/-- The per-state invariant for members of the open heap. -/
def OpenStOk (bl w h initB : Nat) (closed : Closed) (s : State) : Prop :=
  GoodState s ∧ s.bit_length = bl ∧ s.width = w ∧ s.height = h ∧
  s.heuristic_value = heuristicValue bl w h s.board ∧
  (s.src = none → s.board = initB) ∧
  (∀ pb m, s.src = some (pb, m) →
    (dictGet? closed pb).isSome ∧ boardMove bl w h pb m = some s.board)

/-- The invariant of the closed dict: every entry is a well-formed board
whose recorded back-link is a real move from an earlier-settled board, and
only the initial board carries the `None` back-link. -/
def ClosedOk (bl w h initB : Nat) (closed : Closed) : Prop :=
  ∀ b v, dictGet? closed b = some v →
    GoodBoard bl w h b ∧
    (v = none → b = initB) ∧
    (∀ pb m, v = some (pb, m) →
      (dictGet? closed pb).isSome ∧ boardMove bl w h pb m = some b)

/-- No settled board is the goal (while the loop keeps running). -/
def NoGoalClosed (bl w h : Nat) (closed : Closed) : Prop :=
  ∀ b v, dictGet? closed b = some v → heuristicValue bl w h b ≠ 0

/-- Every successor of a settled board is settled or pending. -/
def SuccClosed (bl w h : Nat) (opn : List State) (closed : Closed) : Prop :=
  ∀ b v, dictGet? closed b = some v → ∀ m b', boardMove bl w h b m = some b' →
    (dictGet? closed b').isSome ∨ ∃ s, s ∈ opn ∧ s.board = b'

/-- The full loop invariant. -/
def Inv (bl w h initB : Nat) (opn : List State) (closed : Closed) : Prop :=
  ClosedOk bl w h initB closed ∧
  (∀ s, s ∈ opn → OpenStOk bl w h initB closed s) ∧
  SuccClosed bl w h opn closed ∧
  NoGoalClosed bl w h closed ∧
  ((dictGet? closed initB).isSome ∨ ∃ s, s ∈ opn ∧ s.board = initB)

theorem openStOk_mono (bl w h initB : Nat) (closed : Closed) (k : Nat)
    (v : Option (Nat × Char)) (s : State) (hs : OpenStOk bl w h initB closed s) :
    OpenStOk bl w h initB (dictSet closed k v) s := by
  obtain ⟨h1, h2, h3, h4, h5, h6, h7⟩ := hs
  exact ⟨h1, h2, h3, h4, h5, h6, fun pb m hpm =>
    ⟨dict_dom_mono _ _ _ _ (h7 pb m hpm).1, (h7 pb m hpm).2⟩⟩

theorem mem_heappush (l : List State) (item x : State) (h : x ∈ heappush l item) :
    x ∈ l ∨ x = item := by
  have hp := (heappush_perm l item).mem_iff.mp h
  rcases List.mem_cons.mp hp with hp2 | hp2
  · exact Or.inr hp2
  · exact Or.inl hp2

theorem mem_heappush_self (l : List State) (item : State) : item ∈ heappush l item :=
  (heappush_perm l item).mem_iff.mpr (List.mem_cons_self _ _)

theorem mem_heappush_of_mem (l : List State) (item x : State) (h : x ∈ l) :
    x ∈ heappush l item :=
  (heappush_perm l item).mem_iff.mpr (List.mem_cons_of_mem _ h)

theorem mem_pushIfNew (closed : Closed) (opn : List State) (child : Option State)
    (x : State) (h : x ∈ pushIfNew closed opn child) : x ∈ opn ∨ child = some x := by
  cases child with
  | none => exact Or.inl h
  | some s =>
    have h' : x ∈ (if dictMem closed s.board = true then opn else heappush opn s) := h
    by_cases hm : dictMem closed s.board
    · rw [if_pos hm] at h'
      exact Or.inl h'
    · rw [if_neg hm] at h'
      rcases mem_heappush _ _ _ h' with h2 | h2
      · exact Or.inl h2
      · exact Or.inr (by rw [h2])

theorem mem_pushIfNew_of_mem (closed : Closed) (opn : List State) (child : Option State)
    (x : State) (h : x ∈ opn) : x ∈ pushIfNew closed opn child := by
  cases child with
  | none => exact h
  | some s =>
    show x ∈ (if dictMem closed s.board = true then opn else heappush opn s)
    by_cases hm : dictMem closed s.board
    · rw [if_pos hm]
      exact h
    · rw [if_neg hm]
      exact mem_heappush_of_mem _ _ _ h

theorem pushIfNew_covers (closed : Closed) (opn : List State) (s : State) :
    dictMem closed s.board = true ∨ s ∈ pushIfNew closed opn (some s) := by
  by_cases hm : dictMem closed s.board
  · exact Or.inl hm
  · refine Or.inr ?_
    show s ∈ (if dictMem closed s.board = true then opn else heappush opn s)
    rw [if_neg hm]
    exact mem_heappush_self _ _

theorem mem_expand (cur : State) (opn : List State) (closed : Closed) (x : State)
    (h : x ∈ expand cur opn closed) :
    x ∈ opn ∨ cur.up = some x ∨ cur.down = some x ∨ cur.left = some x ∨
      cur.right = some x := by
  unfold expand at h
  rcases mem_pushIfNew _ _ _ _ h with h | h
  · rcases mem_pushIfNew _ _ _ _ h with h | h
    · rcases mem_pushIfNew _ _ _ _ h with h | h
      · rcases mem_pushIfNew _ _ _ _ h with h | h
        · exact Or.inl h
        · exact Or.inr (Or.inl h)
      · exact Or.inr (Or.inr (Or.inl h))
    · exact Or.inr (Or.inr (Or.inr (Or.inl h)))
  · exact Or.inr (Or.inr (Or.inr (Or.inr h)))

theorem mem_expand_of_mem (cur : State) (opn : List State) (closed : Closed) (x : State)
    (h : x ∈ opn) : x ∈ expand cur opn closed := by
  unfold expand
  exact mem_pushIfNew_of_mem _ _ _ _ (mem_pushIfNew_of_mem _ _ _ _
    (mem_pushIfNew_of_mem _ _ _ _ (mem_pushIfNew_of_mem _ _ _ _ h)))

theorem expand_covers_up (cur : State) (opn : List State) (closed : Closed) (s : State)
    (h : cur.up = some s) :
    (dictGet? closed s.board).isSome ∨ ∃ x, x ∈ expand cur opn closed ∧ x.board = s.board := by
  unfold expand
  rw [h]
  rcases pushIfNew_covers closed opn s with hm | hm
  · exact Or.inl hm
  · exact Or.inr ⟨s, mem_pushIfNew_of_mem _ _ _ _ (mem_pushIfNew_of_mem _ _ _ _
      (mem_pushIfNew_of_mem _ _ _ _ hm)), rfl⟩

theorem expand_covers_down (cur : State) (opn : List State) (closed : Closed) (s : State)
    (h : cur.down = some s) :
    (dictGet? closed s.board).isSome ∨ ∃ x, x ∈ expand cur opn closed ∧ x.board = s.board := by
  unfold expand
  rw [h]
  rcases pushIfNew_covers closed (pushIfNew closed opn cur.up) s with hm | hm
  · exact Or.inl hm
  · exact Or.inr ⟨s, mem_pushIfNew_of_mem _ _ _ _ (mem_pushIfNew_of_mem _ _ _ _ hm), rfl⟩

theorem expand_covers_left (cur : State) (opn : List State) (closed : Closed) (s : State)
    (h : cur.left = some s) :
    (dictGet? closed s.board).isSome ∨ ∃ x, x ∈ expand cur opn closed ∧ x.board = s.board := by
  unfold expand
  rw [h]
  rcases pushIfNew_covers closed (pushIfNew closed (pushIfNew closed opn cur.up) cur.down) s
    with hm | hm
  · exact Or.inl hm
  · exact Or.inr ⟨s, mem_pushIfNew_of_mem _ _ _ _ hm, rfl⟩

theorem expand_covers_right (cur : State) (opn : List State) (closed : Closed) (s : State)
    (h : cur.right = some s) :
    (dictGet? closed s.board).isSome ∨ ∃ x, x ∈ expand cur opn closed ∧ x.board = s.board := by
  unfold expand
  rw [h]
  rcases pushIfNew_covers closed (pushIfNew closed (pushIfNew closed
    (pushIfNew closed opn cur.up) cur.down) cur.left) s with hm | hm
  · exact Or.inl hm
  · exact Or.inr ⟨s, hm, rfl⟩

/-- Recording the popped state keeps the closed dict coherent. -/
theorem closedOk_step (bl w h initB : Nat) (closed : Closed) (current : State)
    (hclosed : ClosedOk bl w h initB closed)
    (hcur : OpenStOk bl w h initB closed current) :
    ClosedOk bl w h initB (dictSet closed current.board current.src) := by
  intro b v hbv
  obtain ⟨hg, hbl, hw, hh, hheur, hnone, hsome⟩ := hcur
  rcases dictGet_dictSet_inv _ _ _ _ _ hbv with ⟨rfl, rfl⟩ | ⟨hne, hold⟩
  · refine ⟨?_, ?_, ?_⟩
    · have := goodState_goodBoard current hg
      rwa [hbl, hw, hh] at this
    · intro hv
      exact hnone hv
    · intro pb m hpm
      obtain ⟨hdom, hmv⟩ := hsome pb m hpm
      exact ⟨dict_dom_mono _ _ _ _ hdom, hmv⟩
  · obtain ⟨hg2, hn2, hs2⟩ := hclosed b v hold
    refine ⟨hg2, hn2, fun pb m hpm => ?_⟩
    obtain ⟨hdom, hmv⟩ := hs2 pb m hpm
    exact ⟨dict_dom_mono _ _ _ _ hdom, hmv⟩

/-- A generated child pushed by `expand` satisfies the open invariant
against the updated closed dict. -/
theorem child_openStOk (bl w h initB : Nat) (closed : Closed) (current s' : State)
    (hcur : OpenStOk bl w h initB closed current)
    (hchild : applyMove current 'U' = some s' ∨ applyMove current 'D' = some s' ∨
      applyMove current 'L' = some s' ∨ applyMove current 'R' = some s') :
    OpenStOk bl w h initB (dictSet closed current.board current.src) s' := by
  obtain ⟨hg, hbl, hw, hh, hheur, hnone, hsome⟩ := hcur
  have hmain : ∀ m : Char, applyMove current m = some s' →
      OpenStOk bl w h initB (dictSet closed current.board current.src) s' := by
    intro m hm
    obtain ⟨hg', hw', hh', hbl', hc'⟩ := applyMove_good current m s' hg hm
    have hbm : boardMove bl w h current.board m = some s'.board := by
      have := applyMove_boardMove current m hg
      rw [hbl, hw, hh] at this
      rw [← this, hm]
      rfl
    have hsrc : ∃ mm : Char, s'.src = some (current.board, mm) ∧
        boardMove bl w h current.board mm = some s'.board := by
      unfold applyMove at hm
      split_ifs at hm with h1 h2 h3 h4
      · obtain ⟨_, _, _, _, _, hsrc', _⟩ := up_good current s' hg hm
        refine ⟨'U', hsrc', ?_⟩
        have := applyMove_boardMove current 'U' hg
        rw [hbl, hw, hh] at this
        rw [← this]
        unfold applyMove
        simp [hm]
      · obtain ⟨_, _, _, _, _, hsrc', _⟩ := down_good current s' hg hm
        refine ⟨'D', hsrc', ?_⟩
        have := applyMove_boardMove current 'D' hg
        rw [hbl, hw, hh] at this
        rw [← this]
        unfold applyMove
        simp [hm]
      · obtain ⟨_, _, _, _, _, hsrc', _⟩ := left_good current s' hg hm
        refine ⟨'L', hsrc', ?_⟩
        have := applyMove_boardMove current 'L' hg
        rw [hbl, hw, hh] at this
        rw [← this]
        unfold applyMove
        simp [hm]
      · obtain ⟨_, _, _, _, _, hsrc', _⟩ := right_good current s' hg hm
        refine ⟨'R', hsrc', ?_⟩
        have := applyMove_boardMove current 'R' hg
        rw [hbl, hw, hh] at this
        rw [← this]
        unfold applyMove
        simp [hm]
    obtain ⟨mm, hsrc', hbm'⟩ := hsrc
    refine ⟨hg', ?_, ?_, ?_, ?_, ?_, ?_⟩
    · rw [hbl', hbl]
    · rw [hw', hw]
    · rw [hh', hh]
    · have hfield : s'.heuristic_value =
          heuristicValue current.bit_length current.width current.height s'.board := by
        unfold applyMove at hm
        split_ifs at hm
        · exact (up_good current s' hg hm).2.2.2.2.2.2.2.1
        · exact (down_good current s' hg hm).2.2.2.2.2.2.2.1
        · exact (left_good current s' hg hm).2.2.2.2.2.2.2.1
        · exact (right_good current s' hg hm).2.2.2.2.2.2.2.1
      rw [hfield, hbl, hw, hh]
    · intro hcon
      rw [hsrc'] at hcon
      exact absurd hcon (by simp)
    · intro pb m2 hpm
      rw [hsrc'] at hpm
      have h12 := Option.some.inj hpm
      have h1 : current.board = pb := congrArg Prod.fst h12
      have h2 : mm = m2 := congrArg Prod.snd h12
      refine ⟨?_, ?_⟩
      · rw [← h1, dictGet_dictSet_self]
        rfl
      · rw [← h1, ← h2]
        exact hbm'
  rcases hchild with hm | hm | hm | hm
  · exact hmain 'U' hm
  · exact hmain 'D' hm
  · exact hmain 'L' hm
  · exact hmain 'R' hm

/-- One non-goal iteration of the loop preserves the invariant. -/
theorem inv_step (bl w h initB : Nat) (opn opn' : List State) (closed : Closed)
    (current : State) (hinv : Inv bl w h initB opn closed)
    (hpop : heappop opn = some (current, opn'))
    (hng : current.heuristic_value ≠ 0) :
    Inv bl w h initB (expand current opn' (dictSet closed current.board current.src))
      (dictSet closed current.board current.src) := by
  obtain ⟨hclosed, hopen, hsucc, hnogoal, hinit⟩ := hinv
  have hperm := heappop_perm opn current opn' hpop
  have hcurmem : current ∈ opn := hperm.mem_iff.mpr (List.mem_cons_self _ _)
  have hmem' : ∀ x, x ∈ opn' → x ∈ opn := fun x hx =>
    hperm.mem_iff.mpr (List.mem_cons_of_mem _ hx)
  have hcur := hopen current hcurmem
  set closed' := dictSet closed current.board current.src with hc'
  have hclosed' : ClosedOk bl w h initB closed' := closedOk_step _ _ _ _ _ _ hclosed hcur
  have hopen' : ∀ s, s ∈ expand current opn' closed' → OpenStOk bl w h initB closed' s := by
    intro s hs
    rcases mem_expand _ _ _ _ hs with hs2 | hs2 | hs2 | hs2 | hs2
    · exact openStOk_mono _ _ _ _ _ _ _ _ (hopen s (hmem' s hs2))
    · exact child_openStOk _ _ _ _ _ _ _ hcur (Or.inl (by unfold applyMove; simpa using hs2))
    · exact child_openStOk _ _ _ _ _ _ _ hcur
        (Or.inr (Or.inl (by unfold applyMove; simpa using hs2)))
    · exact child_openStOk _ _ _ _ _ _ _ hcur
        (Or.inr (Or.inr (Or.inl (by unfold applyMove; simpa using hs2))))
    · exact child_openStOk _ _ _ _ _ _ _ hcur
        (Or.inr (Or.inr (Or.inr (by unfold applyMove; simpa using hs2))))
  refine ⟨hclosed', hopen', ?_, ?_, ?_⟩
  · -- SuccClosed
    intro b v hbv m b' hmv
    obtain ⟨hgcur, hblc, hwc, hhc, hheurc, _, _⟩ := hcur
    rcases dictGet_dictSet_inv _ _ _ _ _ hbv with ⟨rfl, rfl⟩ | ⟨hne, hold⟩
    · -- successors of the newly settled board
      have hbm : (applyMove current m).map State.board = some b' := by
        have := applyMove_boardMove current m hgcur
        rw [hblc, hwc, hhc] at this
        rw [this]
        exact hmv
      obtain ⟨s', hs', hb'⟩ : ∃ s', applyMove current m = some s' ∧ s'.board = b' := by
        cases hap : applyMove current m with
        | none => rw [hap] at hbm; exact absurd hbm (by simp)
        | some s' =>
          rw [hap] at hbm
          exact ⟨s', rfl, Option.some.inj hbm⟩
      have hchild : current.up = some s' ∨ current.down = some s' ∨
          current.left = some s' ∨ current.right = some s' := by
        unfold applyMove at hs'
        split_ifs at hs'
        · exact Or.inl hs'
        · exact Or.inr (Or.inl hs')
        · exact Or.inr (Or.inr (Or.inl hs'))
        · exact Or.inr (Or.inr (Or.inr hs'))
      rcases hchild with hch | hch | hch | hch
      · rcases expand_covers_up current opn' closed' s' hch with hcov | ⟨x, hx1, hx2⟩
        · exact Or.inl (by rw [← hb']; exact hcov)
        · exact Or.inr ⟨x, hx1, by rw [hx2, hb']⟩
      · rcases expand_covers_down current opn' closed' s' hch with hcov | ⟨x, hx1, hx2⟩
        · exact Or.inl (by rw [← hb']; exact hcov)
        · exact Or.inr ⟨x, hx1, by rw [hx2, hb']⟩
      · rcases expand_covers_left current opn' closed' s' hch with hcov | ⟨x, hx1, hx2⟩
        · exact Or.inl (by rw [← hb']; exact hcov)
        · exact Or.inr ⟨x, hx1, by rw [hx2, hb']⟩
      · rcases expand_covers_right current opn' closed' s' hch with hcov | ⟨x, hx1, hx2⟩
        · exact Or.inl (by rw [← hb']; exact hcov)
        · exact Or.inr ⟨x, hx1, by rw [hx2, hb']⟩
    · rcases hsucc b v hold m b' hmv with hdom | ⟨s, hsmem, hsb⟩
      · exact Or.inl (dict_dom_mono _ _ _ _ hdom)
      · rcases List.mem_cons.mp (hperm.mem_iff.mp hsmem) with rfl | hs2
        · refine Or.inl ?_
          rw [← hsb, hc', dictGet_dictSet_self]
          rfl
        · exact Or.inr ⟨s, mem_expand_of_mem _ _ _ _ hs2, hsb⟩
  · -- NoGoalClosed
    intro b v hbv
    rcases dictGet_dictSet_inv _ _ _ _ _ hbv with ⟨rfl, rfl⟩ | ⟨hne, hold⟩
    · obtain ⟨_, _, _, _, hheurc, _, _⟩ := hcur
      rw [← hheurc]
      exact hng
    · exact hnogoal b v hold
  · -- InitIn
    rcases hinit with hdom | ⟨s, hsmem, hsb⟩
    · exact Or.inl (dict_dom_mono _ _ _ _ hdom)
    · rcases List.mem_cons.mp (hperm.mem_iff.mp hsmem) with rfl | hs2
      · refine Or.inl ?_
        rw [← hsb, hc', dictGet_dictSet_self]
        rfl
      · exact Or.inr ⟨s, mem_expand_of_mem _ _ _ _ hs2, hsb⟩

/-! ## Soundness of reconstruction and the search loop -/

/-- Board-level application of a move sequence, oldest first. -/
def applyMovesB (bl w h : Nat) (b : Nat) : List Char → Option Nat
  | [] => some b
  | m :: ms => (boardMove bl w h b m).bind (fun b' => applyMovesB bl w h b' ms)

theorem applyMovesB_append (bl w h : Nat) (t : List Char) :
    ∀ (b : Nat) (m : Char), applyMovesB bl w h b (t ++ [m]) =
      (applyMovesB bl w h b t).bind (fun x => boardMove bl w h x m) := by
  induction t with
  | nil =>
    intro b m
    simp [applyMovesB]
  | cons m0 t' ih =>
    intro b m
    show (boardMove bl w h b m0).bind (fun b' => applyMovesB bl w h b' (t' ++ [m])) =
      ((boardMove bl w h b m0).bind (fun b' => applyMovesB bl w h b' t')).bind
        (fun x => boardMove bl w h x m)
    cases boardMove bl w h b m0 with
    | none => rfl
    | some b1 =>
      show applyMovesB bl w h b1 (t' ++ [m]) =
        (applyMovesB bl w h b1 t').bind (fun x => boardMove bl w h x m)
      exact ih b1 m

/-- A successful reconstruction walk yields a move sequence that drives
the initial board to the walk's starting board. -/
theorem reconstruct_sound (bl w h initB : Nat) (closed : Closed)
    (hc : ClosedOk bl w h initB closed) :
    ∀ (fuel b : Nat) (trail : List Char), reconstruct closed b fuel = some trail →
      applyMovesB bl w h initB trail = some b := by
  intro fuel
  induction fuel with
  | zero => intro b trail hr; exact absurd hr (by simp [reconstruct])
  | succ f ih =>
    intro b trail hr
    unfold reconstruct at hr
    cases hv : dictGet? closed b with
    | none => rw [hv] at hr; exact absurd hr (by simp)
    | some v =>
      rw [hv] at hr
      cases v with
      | none =>
        have hb := (hc b none hv).2.1 rfl
        have hr2 : (some ([] : List Char)) = some trail := hr
        have ht : trail = [] := (Option.some.inj hr2).symm
        rw [ht, hb]
        rfl
      | some pm =>
        obtain ⟨pb, m⟩ := pm
        have hr2 : (reconstruct closed pb f).map (fun x => x ++ [m]) = some trail := hr
        cases hrec : reconstruct closed pb f with
        | none => rw [hrec] at hr2; exact absurd hr2 (by simp)
        | some t' =>
          rw [hrec] at hr2
          simp only [Option.map_some', Option.some.injEq] at hr2
          have hstep := (hc b (some (pb, m)) hv).2.2 pb m rfl
          rw [← hr2, applyMovesB_append, ih pb t' hrec]
          exact hstep.2

/-- If the loop returns a solution, applying the trail to the initial
board reaches a goal board (heuristic `0`, well formed). -/
theorem searchLoop_solution (bl w h initB : Nat) (fuel : Nat) :
    ∀ (opn : List State) (closed : Closed), Inv bl w h initB opn closed →
      ∀ trail, searchLoop fuel opn closed = some (SolveResult.solution trail) →
        ∃ bEnd, applyMovesB bl w h initB trail = some bEnd ∧
          GoodBoard bl w h bEnd ∧ heuristicValue bl w h bEnd = 0 := by
  induction fuel with
  | zero => intro opn closed _ trail hres; exact absurd hres (by simp [searchLoop])
  | succ f ih =>
    intro opn closed hinv trail hres
    unfold searchLoop at hres
    cases hpop : heappop opn with
    | none =>
      rw [hpop] at hres
      have hres2 : some SolveResult.unsolvable = some (SolveResult.solution trail) := hres
      exact absurd hres2 (by simp)
    | some pr =>
      obtain ⟨current, opn'⟩ := pr
      rw [hpop] at hres
      have hres2 : (if current.heuristic_value = 0 then
          (match reconstruct (dictSet closed current.board current.src) current.board
              ((dictSet closed current.board current.src).length + 1) with
            | some t => some (SolveResult.solution t)
            | none => none)
        else searchLoop f (expand current opn' (dictSet closed current.board current.src))
          (dictSet closed current.board current.src)) =
          some (SolveResult.solution trail) := hres
      obtain ⟨hclosed, hopen, hsucc, hnogoal, hinit⟩ := hinv
      have hperm := heappop_perm opn current opn' hpop
      have hcurmem : current ∈ opn := hperm.mem_iff.mpr (List.mem_cons_self _ _)
      have hcur := hopen current hcurmem
      by_cases hh0 : current.heuristic_value = 0
      · rw [if_pos hh0] at hres2
        have hclosed' := closedOk_step bl w h initB closed current hclosed hcur
        cases hrec : reconstruct (dictSet closed current.board current.src) current.board
            ((dictSet closed current.board current.src).length + 1) with
        | none => rw [hrec] at hres2; exact absurd hres2 (by simp)
        | some trail' =>
          rw [hrec] at hres2
          simp only [Option.some.injEq, SolveResult.solution.injEq] at hres2
          obtain ⟨hgcur, hblc, hwc, hhc, hheurc, _, _⟩ := hcur
          refine ⟨current.board, ?_, ?_, ?_⟩
          · rw [← hres2]
            exact reconstruct_sound bl w h initB _ hclosed' _ _ _ hrec
          · have := goodState_goodBoard current hgcur
            rwa [hblc, hwc, hhc] at this
          · rw [← hheurc]
            exact hh0
      · rw [if_neg hh0] at hres2
        exact ih _ _ (inv_step bl w h initB opn opn' closed current
          ⟨hclosed, hopen, hsucc, hnogoal, hinit⟩ hpop hh0) trail hres2

/-- If the loop reports "unsolvable", no move sequence leads from the
initial board to a goal board. -/
theorem searchLoop_unsolvable (bl w h initB : Nat) (fuel : Nat) :
    ∀ (opn : List State) (closed : Closed), Inv bl w h initB opn closed →
      searchLoop fuel opn closed = some SolveResult.unsolvable →
        ∀ (trail : List Char) (bEnd : Nat), applyMovesB bl w h initB trail = some bEnd →
          heuristicValue bl w h bEnd ≠ 0 := by
  induction fuel with
  | zero => intro opn closed _ hres; exact absurd hres (by simp [searchLoop])
  | succ f ih =>
    intro opn closed hinv hres
    unfold searchLoop at hres
    cases hpop : heappop opn with
    | none =>
      -- the open heap is empty: every board reachable from `initB` is
      -- settled, and no settled board is a goal
      have hempty : opn = [] := by
        cases opn with
        | nil => rfl
        | cons y ys =>
          exfalso
          simp only [heappop] at hpop
          rcases hd : (y :: ys).dropLast with _ | ⟨z, zs⟩ <;> rw [hd] at hpop <;> simp at hpop
      subst hempty
      obtain ⟨hclosed, _, hsucc, hnogoal, hinit⟩ := hinv
      have hinitdom : (dictGet? closed initB).isSome := by
        rcases hinit with hdom | ⟨s, hsmem, _⟩
        · exact hdom
        · exact absurd hsmem (by simp)
      have htrap : ∀ (trail : List Char) (b0 bEnd : Nat), (dictGet? closed b0).isSome →
          applyMovesB bl w h b0 trail = some bEnd → (dictGet? closed bEnd).isSome := by
        intro trail
        induction trail with
        | nil =>
          intro b0 bEnd hdom happ
          have : b0 = bEnd := by simpa [applyMovesB] using happ
          exact this ▸ hdom
        | cons m ms ihm =>
          intro b0 bEnd hdom happ
          unfold applyMovesB at happ
          cases hmv : boardMove bl w h b0 m with
          | none => rw [hmv] at happ; exact absurd happ (by simp)
          | some b1 =>
            rw [hmv] at happ
            have happ2 : applyMovesB bl w h b1 ms = some bEnd := happ
            obtain ⟨v, hv⟩ := Option.isSome_iff_exists.mp hdom
            have hs1 : (dictGet? closed b1).isSome := by
              rcases hsucc b0 v hv m b1 hmv with hdom1 | ⟨s, hsmem, _⟩
              · exact hdom1
              · exact absurd hsmem (by simp)
            exact ihm b1 bEnd hs1 happ2
      intro trail bEnd happ
      have hEnd := htrap trail initB bEnd hinitdom happ
      obtain ⟨v, hv⟩ := Option.isSome_iff_exists.mp hEnd
      exact hnogoal bEnd v hv
    | some pr =>
      obtain ⟨current, opn'⟩ := pr
      rw [hpop] at hres
      have hres2 : (if current.heuristic_value = 0 then
          (match reconstruct (dictSet closed current.board current.src) current.board
              ((dictSet closed current.board current.src).length + 1) with
            | some t => some (SolveResult.solution t)
            | none => none)
        else searchLoop f (expand current opn' (dictSet closed current.board current.src))
          (dictSet closed current.board current.src)) = some SolveResult.unsolvable := hres
      by_cases hh0 : current.heuristic_value = 0
      · rw [if_pos hh0] at hres2
        cases hrec : reconstruct (dictSet closed current.board current.src) current.board
            ((dictSet closed current.board current.src).length + 1) with
        | none => rw [hrec] at hres2; exact absurd hres2 (by simp)
        | some trail' => rw [hrec] at hres2; exact absurd hres2 (by simp)
      · rw [if_neg hh0] at hres2
        exact ih _ _ (inv_step bl w h initB opn opn' closed current hinv hpop hh0) hres2

/-- The initial configuration satisfies the invariant. -/
theorem inv_init (puz : List (List Nat)) (hwf : WellFormed puz) :
    Inv (initState puz).bit_length (initState puz).width (initState puz).height
      (initState puz).board [initState puz] [] := by
  refine ⟨?_, ?_, ?_, ?_, ?_⟩
  · intro b v hbv
    exact absurd hbv (by simp [dictGet?])
  · intro s hs
    have hseq : s = initState puz := by simpa using hs
    subst hseq
    exact ⟨initState_good puz hwf, rfl, rfl, rfl, rfl, fun _ => rfl, fun pb m hpm => by
      exact absurd hpm (by simp [initState, State.new])⟩
  · intro b v hbv
    exact absurd hbv (by simp [dictGet?])
  · intro b v hbv
    exact absurd hbv (by simp [dictGet?])
  · exact Or.inr ⟨initState puz, List.mem_singleton.mpr rfl, rfl⟩

/-- Board-level move sequences lift back to `State`-level ones. -/
theorem applyMoves_lift (bl w h : Nat) (trail : List Char) :
    ∀ (s : State), GoodState s → s.bit_length = bl → s.width = w → s.height = h →
      ∀ bEnd, applyMovesB bl w h s.board trail = some bEnd →
        ∃ s_end, applyMoves s trail = some s_end ∧ s_end.board = bEnd ∧
          GoodState s_end ∧ s_end.bit_length = bl ∧ s_end.width = w ∧ s_end.height = h := by
  induction trail with
  | nil =>
    intro s hg hbl hw hh bEnd happ
    have hb : s.board = bEnd := by simpa [applyMovesB] using happ
    exact ⟨s, rfl, hb, hg, hbl, hw, hh⟩
  | cons m ms ih =>
    intro s hg hbl hw hh bEnd happ
    unfold applyMovesB at happ
    cases hmv : boardMove bl w h s.board m with
    | none => rw [hmv] at happ; exact absurd happ (by simp)
    | some b1 =>
      rw [hmv] at happ
      have happ2 : applyMovesB bl w h b1 ms = some bEnd := happ
      have hmap : (applyMove s m).map State.board = some b1 := by
        have := applyMove_boardMove s m hg
        rw [hbl, hw, hh] at this
        rw [this]
        exact hmv
      obtain ⟨s1, hs1, hb1⟩ : ∃ s1, applyMove s m = some s1 ∧ s1.board = b1 := by
        cases hap : applyMove s m with
        | none => rw [hap] at hmap; exact absurd hmap (by simp)
        | some s1 =>
          rw [hap] at hmap
          exact ⟨s1, rfl, Option.some.inj hmap⟩
      obtain ⟨hg1, hw1, hh1, hbl1, _⟩ := applyMove_good s m s1 hg hs1
      obtain ⟨s_end, he1, he2, he3, he4, he5, he6⟩ :=
        ih s1 hg1 (by rw [hbl1, hbl]) (by rw [hw1, hw]) (by rw [hh1, hh]) bEnd
          (by rw [hb1]; exact happ2)
      refine ⟨s_end, ?_, he2, he3, he4, he5, he6⟩
      show (applyMove s m).bind (fun s' => applyMoves s' ms) = some s_end
      rw [hs1]
      exact he1

/-- C3: for every well-formed board, whenever `solve` returns a move
sequence, applying it step by step to the initial board (oldest first,
each label sliding the corresponding tile into the blank) produces the
canonical solved configuration: tile `k` at linear index `k-1` and the
blank at the last index (`State.isSolved` is exactly the comparison of
the decoded board with that canonical order). -/
theorem solve_solution_reaches_solved (puz : List (List Nat)) (fuel : Nat)
    (trail : List Char) (hwf : WellFormed puz)
    (hsol : solve puz fuel = some (SolveResult.solution trail)) :
    (applyMoves (initState puz) trail).map State.isSolved = some true := by
  unfold solve at hsol
  by_cases hs : (initState puz).is_solvable
  · rw [if_pos hs] at hsol
    have hinv := inv_init puz hwf
    obtain ⟨bEnd, happ, hgood, hheur⟩ :=
      searchLoop_solution (initState puz).bit_length (initState puz).width
        (initState puz).height (initState puz).board fuel _ _ hinv trail hsol
    obtain ⟨s_end, happly, hboard, hgoodS, hbl2, hw2, hh2⟩ :=
      applyMoves_lift (initState puz).bit_length (initState puz).width
        (initState puz).height trail (initState puz) (initState_good puz hwf)
        rfl rfl rfl bEnd happ
    obtain ⟨hpw, hph, _, _, hperm, _⟩ := hgood
    have hsolved := (heuristicValue_zero_iff (initState puz).bit_length
      (initState puz).width (initState puz).height bEnd hpw hph hperm).mp hheur
    rw [happly]
    have hse : s_end.isSolved = true := by
      unfold State.isSolved
      rw [hbl2, hw2, hh2, hboard]
      exact decide_eq_true hsolved
    show some s_end.isSolved = some true
    rw [hse]
  · rw [if_neg hs] at hsol
    exact absurd hsol (by simp)

/-- Witness for C3 at the concrete board `[[1,2],[0,3]]`. -/
theorem solve_solution_reaches_solved_witness :
    (WellFormed [[1,2],[0,3]] ∧
      solve [[1,2],[0,3]] 10 = some (SolveResult.solution ['L'])) ∧
    (applyMoves (initState [[1,2],[0,3]]) ['L']).map State.isSolved = some true :=
  ⟨⟨by decide, by decide⟩,
    solve_solution_reaches_solved [[1,2],[0,3]] 10 ['L'] (by decide) (by decide)⟩

/-! ## Moves preserve the solvability parity -/

/-- Inverted pairs across the boundary of a concatenation. -/
def crossCount (X Y : List Nat) : Nat :=
  (X.map (fun x => (Y.filter (fun y => y < x)).length)).sum

theorem countInversions_cons (x : Nat) (xs : List Nat) :
    countInversions (x :: xs) = (xs.filter (fun y => y < x)).length + countInversions xs :=
  rfl

theorem countInversions_append (X Y : List Nat) :
    countInversions (X ++ Y) = countInversions X + countInversions Y + crossCount X Y := by
  induction X with
  | nil => simp [countInversions, crossCount]
  | cons x X' ih =>
    rw [List.cons_append, countInversions_cons, countInversions_cons, List.filter_append,
      List.length_append, ih]
    unfold crossCount
    simp only [List.map_cons, List.sum_cons]
    omega

theorem crossCount_perm_right (X : List Nat) {Y Y' : List Nat} (h : Y.Perm Y') :
    crossCount X Y = crossCount X Y' := by
  unfold crossCount
  apply congrArg
  apply List.map_congr_left
  intro x _
  exact (h.filter _).length_eq

theorem sum_map_add (X : List Nat) (f g : Nat → Nat) :
    (X.map (fun x => f x + g x)).sum = (X.map f).sum + (X.map g).sum := by
  induction X with
  | nil => rfl
  | cons x X' ih =>
    simp only [List.map_cons, List.sum_cons, ih]
    omega

theorem sum_ite_gt (X : List Nat) (t : Nat) :
    (X.map (fun x => if t < x then 1 else 0)).sum = (X.filter (fun x => t < x)).length := by
  induction X with
  | nil => rfl
  | cons x X' ih =>
    by_cases hx : t < x
    · simp [hx, ih, List.filter_cons, Nat.add_comm]
    · simp [hx, ih, List.filter_cons]

theorem filter_cons_length (t x : Nat) (C : List Nat) :
    ((t :: C).filter (fun y => y < x)).length =
      (if t < x then 1 else 0) + (C.filter (fun y => y < x)).length := by
  rw [List.filter_cons]
  by_cases h : t < x
  · simp [h, Nat.add_comm]
  · simp [h]

theorem crossCount_cons_right (X : List Nat) (t : Nat) (C : List Nat) :
    crossCount X (t :: C) = (X.filter (fun x => t < x)).length + crossCount X C := by
  unfold crossCount
  have h1 : (fun x => (((t :: C).filter (fun y => y < x)).length)) =
      fun x => (if t < x then 1 else 0) + ((C.filter (fun y => y < x)).length) := by
    funext x
    exact filter_cons_length t x C
  rw [h1, sum_map_add, sum_ite_gt]

theorem filter_lt_gt_length (B : List Nat) (t : Nat) (hB : ∀ b ∈ B, b ≠ t) :
    (B.filter (fun x => t < x)).length + (B.filter (fun y => y < t)).length = B.length := by
  induction B with
  | nil => simp
  | cons b B' ih =>
    have hb : b ≠ t := hB b (List.mem_cons_self _ _)
    have hB' : ∀ x ∈ B', x ≠ t := fun x hx => hB x (List.mem_cons_of_mem _ hx)
    simp only [List.filter_cons]
    rcases Nat.lt_trichotomy t b with hlt | heq | hgt
    · have h1 : decide (t < b) = true := decide_eq_true hlt
      have h2 : decide (b < t) = false := by simp; omega
      simp only [h1, if_true, h2, Bool.false_eq_true, if_false, List.length_cons]
      rw [← ih hB']
      omega
    · exact absurd heq.symm hb
    · have h1 : decide (t < b) = false := by simp; omega
      have h2 : decide (b < t) = true := decide_eq_true hgt
      simp only [h1, Bool.false_eq_true, if_false, h2, if_true, List.length_cons]
      rw [← ih hB']
      omega

/-- Sliding a tile `t` across a block `B` of `w-1` cells flips the
inversion parity by `|B|`: the two flattenings (with the blank removed)
differ exactly by `t` jumping over `B`. -/
theorem inv_move_parity (A B C : List Nat) (t : Nat) (hB : ∀ b ∈ B, b ≠ t) :
    (countInversions (A ++ B ++ t :: C) + countInversions (A ++ t :: B ++ C)) % 2 =
      B.length % 2 := by
  have h1 : countInversions (A ++ B ++ t :: C) =
      countInversions A + countInversions (B ++ t :: C) + crossCount A (B ++ t :: C) := by
    rw [List.append_assoc]
    exact countInversions_append A (B ++ t :: C)
  have h2 : countInversions (A ++ t :: B ++ C) =
      countInversions A + countInversions (t :: B ++ C) + crossCount A (t :: B ++ C) := by
    rw [List.append_assoc]
    exact countInversions_append A ((t :: B) ++ C)
  have hcross : crossCount A (B ++ t :: C) = crossCount A (t :: B ++ C) :=
    crossCount_perm_right A (@List.perm_middle Nat t B C)
  have h3 : countInversions (B ++ t :: C) =
      countInversions B + ((C.filter (fun y => y < t)).length + countInversions C) +
        ((B.filter (fun x => t < x)).length + crossCount B C) := by
    rw [countInversions_append B (t :: C), crossCount_cons_right]
    rfl
  have h4 : countInversions (t :: B ++ C) =
      ((B ++ C).filter (fun y => y < t)).length + countInversions (B ++ C) := rfl
  have h5 : countInversions (B ++ C) =
      countInversions B + countInversions C + crossCount B C :=
    countInversions_append B C
  have h6 : ((B ++ C).filter (fun y => y < t)).length =
      (B.filter (fun y => y < t)).length + (C.filter (fun y => y < t)).length := by
    rw [List.filter_append, List.length_append]
  have h7 := filter_lt_gt_length B t hB
  omega

/-! ## Moves preserve the solvability check -/

theorem set_middle (B C : List Nat) (y v : Nat) :
    (B ++ y :: C).set B.length v = B ++ v :: C := by
  induction B with
  | nil => rfl
  | cons b B' ih =>
    show b :: (B' ++ y :: C).set B'.length v = b :: (B' ++ v :: C)
    rw [ih]

theorem eraseIdx_middle (A C : List Nat) (x : Nat) :
    (A ++ x :: C).eraseIdx A.length = A ++ C := by
  induction A with
  | nil => rfl
  | cons a A' ih =>
    show a :: (A' ++ x :: C).eraseIdx A'.length = a :: (A' ++ C)
    rw [ih]

theorem eraseIdx_middle2 (A B C : List Nat) (x y : Nat) :
    (A ++ x :: B ++ y :: C).eraseIdx (A.length + 1 + B.length) = A ++ x :: B ++ C := by
  induction A with
  | nil =>
    have h1 : ([] : List Nat).length + 1 + B.length = B.length + 1 := by
      rw [List.length_nil]
      omega
    rw [h1]
    show x :: (B ++ y :: C).eraseIdx B.length = x :: (B ++ C)
    rw [eraseIdx_middle]
  | cons a A' ih =>
    have h1 : (a :: A').length + 1 + B.length = (A'.length + 1 + B.length) + 1 := by
      rw [List.length_cons]
      omega
    rw [h1]
    show a :: (A' ++ x :: B ++ y :: C).eraseIdx (A'.length + 1 + B.length) =
      a :: (A' ++ x :: B ++ C)
    rw [ih]

theorem eraseIdx_first (A B C : List Nat) (x y : Nat) :
    (A ++ x :: B ++ y :: C).eraseIdx A.length = A ++ B ++ y :: C := by
  rw [List.append_assoc A B (y :: C), List.append_assoc]
  exact eraseIdx_middle A (B ++ y :: C) x

theorem set_two_middle (A B C : List Nat) (x y u v : Nat) :
    ((A ++ x :: B ++ y :: C).set A.length u).set (A.length + 1 + B.length) v =
      A ++ u :: B ++ v :: C := by
  induction A with
  | nil =>
    have h1 : ([] : List Nat).length + 1 + B.length = B.length + 1 := by
      rw [List.length_nil]
      omega
    rw [h1]
    show u :: (B ++ y :: C).set B.length v = u :: (B ++ v :: C)
    rw [set_middle]
  | cons a A' ih =>
    have h1 : (a :: A').length + 1 + B.length = (A'.length + 1 + B.length) + 1 := by
      rw [List.length_cons]
      omega
    rw [h1]
    show a :: ((A' ++ x :: B ++ y :: C).set A'.length u).set (A'.length + 1 + B.length) v =
      a :: (A' ++ u :: B ++ v :: C)
    rw [ih]

/-- Core parity identity, blank on the left of the slid tile: removing the
blank before and after the swap leaves lists that differ by `t` jumping
over the block `B`. -/
theorem parity_core (A B C : List Nat) (t : Nat) (hB : ∀ b ∈ B, b ≠ t) :
    (countInversions ((A ++ 0 :: B ++ t :: C).eraseIdx A.length) +
      countInversions ((((A ++ 0 :: B ++ t :: C).set A.length t).set
        (A.length + 1 + B.length) 0).eraseIdx (A.length + 1 + B.length))) % 2 =
      B.length % 2 := by
  have h1 : (A ++ 0 :: B ++ t :: C).eraseIdx A.length = A ++ B ++ t :: C :=
    eraseIdx_first A B C 0 t
  have h2 : ((A ++ 0 :: B ++ t :: C).set A.length t).set (A.length + 1 + B.length) 0 =
      A ++ t :: B ++ 0 :: C := set_two_middle A B C 0 t t 0
  have h3 : (A ++ t :: B ++ 0 :: C).eraseIdx (A.length + 1 + B.length) = A ++ t :: B ++ C :=
    eraseIdx_middle2 A B C t 0
  rw [h1, h2, h3]
  exact inv_move_parity A B C t hB

/-- Core parity identity, blank on the right of the slid tile. -/
theorem parity_core2 (A B C : List Nat) (t : Nat) (hB : ∀ b ∈ B, b ≠ t) :
    (countInversions ((A ++ t :: B ++ 0 :: C).eraseIdx (A.length + 1 + B.length)) +
      countInversions ((((A ++ t :: B ++ 0 :: C).set (A.length + 1 + B.length) t).set
        A.length 0).eraseIdx A.length)) % 2 = B.length % 2 := by
  have h1 : (A ++ t :: B ++ 0 :: C).eraseIdx (A.length + 1 + B.length) = A ++ t :: B ++ C :=
    eraseIdx_middle2 A B C t 0
  have h2 : ((A ++ t :: B ++ 0 :: C).set (A.length + 1 + B.length) t).set A.length 0 =
      A ++ 0 :: B ++ t :: C := by
    rw [List.set_comm _ _ _ (by omega)]
    exact set_two_middle A B C t 0 0 t
  have h3 : (A ++ 0 :: B ++ t :: C).eraseIdx A.length = A ++ B ++ t :: C :=
    eraseIdx_first A B C 0 t
  rw [h1, h2, h3]
  have := inv_move_parity A B C t hB
  omega

/-- Split a list around two positions `i < i + d + 1`. -/
theorem decomp_two (vals : List Nat) (i d : Nat) (hlt : i + d + 1 < vals.length) :
    vals = vals.take i ++ vals.getD i 0 :: (vals.drop (i + 1)).take d ++
      vals.getD (i + d + 1) 0 :: vals.drop (i + d + 2) ∧
    (vals.take i).length = i ∧ ((vals.drop (i + 1)).take d).length = d := by
  have hi : i < vals.length := by omega
  have h2 : vals.drop i = vals.getD i 0 :: vals.drop (i + 1) := by
    rw [List.drop_eq_getElem_cons hi, List.getD_eq_getElem?_getD,
      List.getElem?_eq_getElem hi]
    rfl
  have h5 : vals.drop (i + d + 1) = vals.getD (i + d + 1) 0 :: vals.drop (i + d + 2) := by
    have he : i + d + 2 = i + d + 1 + 1 := by omega
    rw [he, List.drop_eq_getElem_cons hlt, List.getD_eq_getElem?_getD,
      List.getElem?_eq_getElem hlt]
    rfl
  have hdd : (vals.drop (i + 1)).drop d = vals.drop (i + d + 1) := by
    rw [List.drop_drop]
    have he : i + 1 + d = i + d + 1 := by omega
    rw [he]
  have hsplit : vals.drop (i + 1) = (vals.drop (i + 1)).take d ++ vals.drop (i + d + 1) := by
    nth_rewrite 1 [← List.take_append_drop d (vals.drop (i + 1))]
    rw [hdd]
  refine ⟨?_, ?_, ?_⟩
  · calc vals = vals.take i ++ vals.drop i := (List.take_append_drop i vals).symm
      _ = vals.take i ++ vals.getD i 0 :: vals.drop (i + 1) := by rw [h2]
      _ = vals.take i ++ vals.getD i 0 ::
            ((vals.drop (i + 1)).take d ++ vals.drop (i + d + 1)) := by
          nth_rewrite 1 [hsplit]
          rfl
      _ = vals.take i ++ vals.getD i 0 :: ((vals.drop (i + 1)).take d ++
            (vals.getD (i + d + 1) 0 :: vals.drop (i + d + 2))) := by rw [h5]
      _ = vals.take i ++ vals.getD i 0 :: (vals.drop (i + 1)).take d ++
            vals.getD (i + d + 1) 0 :: vals.drop (i + d + 2) := by
          rw [List.append_assoc, List.cons_append]
  · rw [List.length_take]
    omega
  · rw [List.length_take, List.length_drop]
    omega

/-- `is_solvable` written over the decoded board. -/
theorem is_solvable_eq (s : State) :
    s.is_solvable = (if s.width % 2 = 1 then
      decide (countInversions ((decodeBoard s.bit_length (s.width * s.height)
        s.board).eraseIdx s.zero_index) % 2 = 0)
    else
      decide ((countInversions ((decodeBoard s.bit_length (s.width * s.height)
          s.board).eraseIdx s.zero_index) +
        ((s.height - 1) - s.zero_index / s.width)) % 2 = 0)) := rfl

/-- Sliding the tile at `zero_index + d + 1` into the blank flips the
inversion parity of the blank-erased flattening by `d`. -/
theorem blank_first_parity (s : State) (hs : GoodState s) (d : Nat)
    (hlt : s.zero_index + d + 1 < s.width * s.height) :
    (countInversions ((decodeBoard s.bit_length (s.width * s.height) s.board).eraseIdx
        s.zero_index) +
      countInversions ((((decodeBoard s.bit_length (s.width * s.height) s.board).set
          s.zero_index (s.tile_at (s.zero_index + d + 1))).set (s.zero_index + d + 1)
          0).eraseIdx (s.zero_index + d + 1))) % 2 = d % 2 := by
  obtain ⟨hw, hh0, hbl, hz, hblt, hperm, ht0⟩ := hs
  set z := s.zero_index with hzdef
  set vals := decodeBoard s.bit_length (s.width * s.height) s.board with hvals
  set t := s.tile_at (z + d + 1) with htdef
  have hlen : vals.length = s.width * s.height :=
    decode_length s.bit_length (s.width * s.height) s.board
  have hnd : vals.Nodup := hperm.nodup_iff.mpr (List.nodup_range (s.width * s.height))
  obtain ⟨key, lenA, lenB⟩ := decomp_two vals z d (by rw [hlen]; exact hlt)
  have hgz : vals.getD z 0 = 0 := by
    rw [hvals, decode_getD s.bit_length (s.width * s.height) s.board z (by omega)]
    exact ht0
  have hgt : vals.getD (z + d + 1) 0 = t := by
    rw [hvals, decode_getD s.bit_length (s.width * s.height) s.board (z + d + 1) hlt]
    rfl
  set A := vals.take z with hA
  set B := (vals.drop (z + 1)).take d with hB
  set C := vals.drop (z + d + 2) with hC
  rw [hgz, hgt] at key
  have hBt : ∀ b ∈ B, b ≠ t := by
    have hnd2 : (A ++ 0 :: B ++ t :: C).Nodup := key ▸ hnd
    have hdisj := List.disjoint_of_nodup_append hnd2
    intro b hb hbt
    exact hdisj (List.mem_append_right A (List.mem_cons_of_mem 0 hb))
      (by rw [hbt]; exact List.mem_cons_self t C)
  have hp := parity_core A B C t hBt
  rw [← key] at hp
  rw [lenA, lenB] at hp
  have he : z + 1 + d = z + d + 1 := by omega
  rw [he] at hp
  exact hp

/-- Sliding the tile at `zero_index - (d + 1)` into the blank flips the
inversion parity of the blank-erased flattening by `d`. -/
theorem blank_second_parity (s : State) (hs : GoodState s) (d : Nat)
    (hge : d + 1 ≤ s.zero_index) :
    (countInversions ((decodeBoard s.bit_length (s.width * s.height) s.board).eraseIdx
        s.zero_index) +
      countInversions ((((decodeBoard s.bit_length (s.width * s.height) s.board).set
          s.zero_index (s.tile_at (s.zero_index - (d + 1)))).set (s.zero_index - (d + 1))
          0).eraseIdx (s.zero_index - (d + 1)))) % 2 = d % 2 := by
  obtain ⟨hw, hh0, hbl, hz, hblt, hperm, ht0⟩ := hs
  set z := s.zero_index with hzdef
  set vals := decodeBoard s.bit_length (s.width * s.height) s.board with hvals
  set t := s.tile_at (z - (d + 1)) with htdef
  have hlen : vals.length = s.width * s.height :=
    decode_length s.bit_length (s.width * s.height) s.board
  have hnd : vals.Nodup := hperm.nodup_iff.mpr (List.nodup_range (s.width * s.height))
  obtain ⟨key, lenA, lenB⟩ := decomp_two vals (z - (d + 1)) d (by rw [hlen]; omega)
  have he1 : z - (d + 1) + d + 1 = z := by omega
  have he2 : z - (d + 1) + d + 2 = z + 1 := by omega
  rw [he1, he2] at key
  have hgz : vals.getD z 0 = 0 := by
    rw [hvals, decode_getD s.bit_length (s.width * s.height) s.board z hz]
    exact ht0
  have hgt : vals.getD (z - (d + 1)) 0 = t := by
    rw [hvals, decode_getD s.bit_length (s.width * s.height) s.board (z - (d + 1)) (by omega)]
    rfl
  set A := vals.take (z - (d + 1)) with hA
  set B := (vals.drop (z - (d + 1) + 1)).take d with hB
  set C := vals.drop (z + 1) with hC
  rw [hgz, hgt] at key
  have hBt : ∀ b ∈ B, b ≠ t := by
    have hnd2 : (A ++ t :: B ++ 0 :: C).Nodup := key ▸ hnd
    have hnd3 : (A ++ t :: B).Nodup := hnd2.of_append_left
    have hnd4 : (t :: B).Nodup := hnd3.of_append_right
    have htB : t ∉ B := (List.nodup_cons.mp hnd4).1
    intro b hb hbt
    exact htB (hbt ▸ hb)
  have hp := parity_core2 A B C t hBt
  rw [← key] at hp
  rw [lenA, lenB] at hp
  have he4 : z - (d + 1) + 1 + d = z := by omega
  rw [he4] at hp
  exact hp

/-- `up` does not change the solvability check. -/
theorem up_solvable (s s' : State) (hs : GoodState s) (h : s.up = some s') :
    s'.is_solvable = s.is_solvable := by
  obtain ⟨hg', hww, hhh, hbb, hcc, hsrc, hzz, hheu, hdec⟩ := up_good s s' hs h
  have hguard : ¬ s.zero_index / s.width = s.height - 1 := by
    intro hgg
    unfold State.up at h
    rw [if_pos hgg] at h
    exact absurd h (by simp)
  obtain ⟨hw, hh0, hbl, hz, hblt, hperm, ht0⟩ := hs
  have hqlt : s.zero_index / s.width < s.height := by
    rw [Nat.div_lt_iff_lt_mul hw]
    calc s.zero_index < s.width * s.height := hz
      _ = s.height * s.width := by ring
  have hident : s.width * (s.zero_index / s.width + 1) =
      s.width * (s.zero_index / s.width) + s.width := by ring
  have hqr : s.width * (s.zero_index / s.width) + s.zero_index % s.width = s.zero_index :=
    Nat.div_add_mod _ _
  have hr : s.zero_index % s.width < s.width := Nat.mod_lt _ hw
  have hmul : s.width * (s.zero_index / s.width + 1) ≤ s.width * (s.height - 1) :=
    Nat.mul_le_mul_left _ (by omega)
  have hident2 : s.width * (s.height - 1) + s.width = s.width * s.height := by
    have h2 : s.height - 1 + 1 = s.height := by omega
    calc s.width * (s.height - 1) + s.width = s.width * ((s.height - 1) + 1) := by ring
      _ = s.width * s.height := by rw [h2]
  have hlt : s.zero_index + s.width < s.width * s.height := by omega
  have he : s.zero_index + (s.width - 1) + 1 = s.zero_index + s.width := by omega
  have hpar := blank_first_parity s ⟨hw, hh0, hbl, hz, hblt, hperm, ht0⟩ (s.width - 1)
    (by rw [he]; exact hlt)
  rw [he] at hpar
  have hdiv : (s.zero_index + s.width) / s.width = s.zero_index / s.width + 1 :=
    Nat.add_div_right _ hw
  rw [is_solvable_eq s', is_solvable_eq s, hww, hhh, hbb, hzz, hdec, hdiv]
  by_cases hwodd : s.width % 2 = 1
  · rw [if_pos hwodd, if_pos hwodd, decide_eq_decide]
    omega
  · rw [if_neg hwodd, if_neg hwodd, decide_eq_decide]
    omega

/-- `down` does not change the solvability check. -/
theorem down_solvable (s s' : State) (hs : GoodState s) (h : s.down = some s') :
    s'.is_solvable = s.is_solvable := by
  obtain ⟨hg', hww, hhh, hbb, hcc, hsrc, hzz, hheu, hdec⟩ := down_good s s' hs h
  have hguard : ¬ s.zero_index / s.width = 0 := by
    intro hgg
    unfold State.down at h
    rw [if_pos hgg] at h
    exact absurd h (by simp)
  obtain ⟨hw, hh0, hbl, hz, hblt, hperm, ht0⟩ := hs
  have hwz : s.width ≤ s.zero_index := by
    by_contra hc
    push_neg at hc
    exact hguard (Nat.div_eq_of_lt hc)
  have he : s.width - 1 + 1 = s.width := by omega
  have hpar := blank_second_parity s ⟨hw, hh0, hbl, hz, hblt, hperm, ht0⟩ (s.width - 1)
    (by omega)
  rw [he] at hpar
  have hqlt : s.zero_index / s.width < s.height := by
    rw [Nat.div_lt_iff_lt_mul hw]
    calc s.zero_index < s.width * s.height := hz
      _ = s.height * s.width := by ring
  have hsub : s.zero_index - s.width + s.width = s.zero_index := by omega
  have hdiv0 : (s.zero_index - s.width + s.width) / s.width =
      (s.zero_index - s.width) / s.width + 1 := Nat.add_div_right _ hw
  rw [hsub] at hdiv0
  rw [is_solvable_eq s', is_solvable_eq s, hww, hhh, hbb, hzz, hdec]
  by_cases hwodd : s.width % 2 = 1
  · rw [if_pos hwodd, if_pos hwodd, decide_eq_decide]
    omega
  · rw [if_neg hwodd, if_neg hwodd, decide_eq_decide]
    omega

/-- `left` does not change the solvability check. -/
theorem left_solvable (s s' : State) (hs : GoodState s) (h : s.left = some s') :
    s'.is_solvable = s.is_solvable := by
  obtain ⟨hg', hww, hhh, hbb, hcc, hsrc, hzz, hheu, hdec⟩ := left_good s s' hs h
  have hguard : ¬ s.zero_index % s.width = s.width - 1 := by
    intro hgg
    unfold State.left at h
    rw [if_pos hgg] at h
    exact absurd h (by simp)
  obtain ⟨hw, hh0, hbl, hz, hblt, hperm, ht0⟩ := hs
  have hqr : s.width * (s.zero_index / s.width) + s.zero_index % s.width = s.zero_index :=
    Nat.div_add_mod _ _
  have hr : s.zero_index % s.width < s.width := Nat.mod_lt _ hw
  have hqlt : s.zero_index / s.width < s.height := by
    rw [Nat.div_lt_iff_lt_mul hw]
    calc s.zero_index < s.width * s.height := hz
      _ = s.height * s.width := by ring
  have hmul : s.width * (s.zero_index / s.width + 1) ≤ s.width * s.height := by
    have hle : s.zero_index / s.width + 1 ≤ s.height := by omega
    exact Nat.mul_le_mul_left _ hle
  have hident : s.width * (s.zero_index / s.width + 1) =
      s.width * (s.zero_index / s.width) + s.width := by ring
  have hlt : s.zero_index + 1 < s.width * s.height := by omega
  have he : s.zero_index + 0 + 1 = s.zero_index + 1 := by omega
  have hpar := blank_first_parity s ⟨hw, hh0, hbl, hz, hblt, hperm, ht0⟩ 0
    (by rw [he]; exact hlt)
  rw [he] at hpar
  have hdiv : (s.zero_index + 1) / s.width = s.zero_index / s.width := by
    have e1 : s.zero_index + 1 =
        s.width * (s.zero_index / s.width) + (s.zero_index % s.width + 1) := by omega
    have hrw : s.zero_index % s.width + 1 < s.width := by omega
    rw [e1, Nat.mul_add_div hw, Nat.div_eq_of_lt hrw]
    omega
  rw [is_solvable_eq s', is_solvable_eq s, hww, hhh, hbb, hzz, hdec, hdiv]
  by_cases hwodd : s.width % 2 = 1
  · rw [if_pos hwodd, if_pos hwodd, decide_eq_decide]
    omega
  · rw [if_neg hwodd, if_neg hwodd, decide_eq_decide]
    omega

/-- `right` does not change the solvability check. -/
theorem right_solvable (s s' : State) (hs : GoodState s) (h : s.right = some s') :
    s'.is_solvable = s.is_solvable := by
  obtain ⟨hg', hww, hhh, hbb, hcc, hsrc, hzz, hheu, hdec⟩ := right_good s s' hs h
  have hguard : ¬ s.zero_index % s.width = 0 := by
    intro hgg
    unfold State.right at h
    rw [if_pos hgg] at h
    exact absurd h (by simp)
  obtain ⟨hw, hh0, hbl, hz, hblt, hperm, ht0⟩ := hs
  have hr : s.zero_index % s.width < s.width := Nat.mod_lt _ hw
  have hqr : s.width * (s.zero_index / s.width) + s.zero_index % s.width = s.zero_index :=
    Nat.div_add_mod _ _
  have hge : (0 : Nat) + 1 ≤ s.zero_index := by omega
  have hpar := blank_second_parity s ⟨hw, hh0, hbl, hz, hblt, hperm, ht0⟩ 0 hge
  have he : s.zero_index - (0 + 1) = s.zero_index - 1 := by omega
  rw [he] at hpar
  have hdiv : (s.zero_index - 1) / s.width = s.zero_index / s.width := by
    have e1 : s.zero_index - 1 =
        s.width * (s.zero_index / s.width) + (s.zero_index % s.width - 1) := by omega
    have hrw : s.zero_index % s.width - 1 < s.width := by omega
    rw [e1, Nat.mul_add_div hw, Nat.div_eq_of_lt hrw]
    omega
  rw [is_solvable_eq s', is_solvable_eq s, hww, hhh, hbb, hzz, hdec, hdiv]
  by_cases hwodd : s.width % 2 = 1
  · rw [if_pos hwodd, if_pos hwodd, decide_eq_decide]
    omega
  · rw [if_neg hwodd, if_neg hwodd, decide_eq_decide]
    omega

/-- Every legal move preserves the solvability check. -/
theorem applyMove_solvable (s : State) (m : Char) (s' : State) (hs : GoodState s)
    (h : applyMove s m = some s') : s'.is_solvable = s.is_solvable := by
  unfold applyMove at h
  split_ifs at h
  · exact up_solvable s s' hs h
  · exact down_solvable s s' hs h
  · exact left_solvable s s' hs h
  · exact right_solvable s s' hs h

/-- Move sequences preserve the invariant, the dimensions, the solvability
check, and project to board-level move sequences. -/
theorem applyMoves_props (trail : List Char) :
    ∀ (s s' : State), GoodState s → applyMoves s trail = some s' →
      GoodState s' ∧ s'.bit_length = s.bit_length ∧ s'.width = s.width ∧
      s'.height = s.height ∧ s'.is_solvable = s.is_solvable ∧
      applyMovesB s.bit_length s.width s.height s.board trail = some s'.board := by
  induction trail with
  | nil =>
    intro s s' hg h
    have hss : s = s' := by simpa [applyMoves] using h
    subst hss
    exact ⟨hg, rfl, rfl, rfl, rfl, rfl⟩
  | cons m ms ih =>
    intro s s' hg h
    unfold applyMoves at h
    cases hm : applyMove s m with
    | none => rw [hm] at h; exact absurd h (by simp)
    | some s1 =>
      rw [hm] at h
      have h2 : applyMoves s1 ms = some s' := h
      obtain ⟨hg1, hw1, hh1, hbl1, _⟩ := applyMove_good s m s1 hg hm
      obtain ⟨hg', hbl', hw', hh', hsv', hb'⟩ := ih s1 s' hg1 h2
      have hsolv1 : s1.is_solvable = s.is_solvable := applyMove_solvable s m s1 hg hm
      refine ⟨hg', ?_, ?_, ?_, ?_, ?_⟩
      · rw [hbl', hbl1]
      · rw [hw', hw1]
      · rw [hh', hh1]
      · rw [hsv', hsolv1]
      · show (boardMove s.bit_length s.width s.height s.board m).bind
          (fun b' => applyMovesB s.bit_length s.width s.height b' ms) = some s'.board
        have hbm : boardMove s.bit_length s.width s.height s.board m = some s1.board := by
          have hmb := applyMove_boardMove s m hg
          rw [← hmb, hm]
          rfl
        rw [hbm]
        show applyMovesB s.bit_length s.width s.height s1.board ms = some s'.board
        rw [← hbl1, ← hw1, ← hh1]
        exact hb'

/-- A weakly increasing list has no inversions. -/
theorem countInversions_sorted (l : List Nat) (h : l.Pairwise (· ≤ ·)) :
    countInversions l = 0 := by
  induction l with
  | nil => rfl
  | cons x xs ih =>
    rw [countInversions_cons]
    have h1 : xs.filter (fun y => y < x) = [] := by
      apply List.filter_eq_nil_iff.mpr
      intro a ha
      have hxa := (List.pairwise_cons.mp h).1 a ha
      simp only [decide_eq_true_eq]
      omega
    rw [h1, ih (List.pairwise_cons.mp h).2]
    rfl

/-- Erasing the final blank from the solved order leaves `1, …, n-1`. -/
theorem solvedFlat_eraseIdx (n : Nat) :
    (solvedFlat n).eraseIdx (n - 1) = (List.range (n - 1)).map (· + 1) := by
  have hM : ((List.range (n - 1)).map (· + 1)).length = n - 1 := by simp
  have he := eraseIdx_middle ((List.range (n - 1)).map (· + 1)) [] 0
  rw [List.append_nil, hM] at he
  exact he

/-- The solved configuration passes the solvability check. -/
theorem solved_is_solvable (s : State) (hs : GoodState s) (hsolved : s.isSolved = true) :
    s.is_solvable = true := by
  obtain ⟨hw, hh0, hbl, hz, hblt, hperm, ht0⟩ := hs
  have hn1 : 0 < s.width * s.height := Nat.mul_pos hw hh0
  have hdecode : decodeBoard s.bit_length (s.width * s.height) s.board =
      solvedFlat (s.width * s.height) := by
    have h' : decide (decodeBoard s.bit_length (s.width * s.height) s.board =
        solvedFlat (s.width * s.height)) = true := hsolved
    exact of_decide_eq_true h'
  have hgz : (decodeBoard s.bit_length (s.width * s.height) s.board).getD s.zero_index 0 =
      0 := by
    rw [decode_getD s.bit_length (s.width * s.height) s.board s.zero_index hz]
    exact ht0
  have hzn : s.zero_index = s.width * s.height - 1 := by
    by_contra hne
    have hzlt : s.zero_index < s.width * s.height - 1 := by omega
    have hval : (decodeBoard s.bit_length (s.width * s.height) s.board).getD
        s.zero_index 0 = s.zero_index + 1 := by
      rw [hdecode]
      unfold solvedFlat
      rw [List.getD_append _ _ _ _ (by simp; omega)]
      rw [List.getD_eq_getElem?_getD, List.getElem?_map, List.getElem?_range (by omega)]
      rfl
    rw [hgz] at hval
    omega
  have hpw : (((List.range (s.width * s.height - 1)).map (· + 1)) :
      List Nat).Pairwise (· ≤ ·) :=
    (List.pairwise_lt_range _).map _ (fun a b hab => Nat.succ_le_succ (Nat.le_of_lt hab))
  have hinv : countInversions ((decodeBoard s.bit_length (s.width * s.height)
      s.board).eraseIdx s.zero_index) = 0 := by
    rw [hdecode, hzn, solvedFlat_eraseIdx]
    exact countInversions_sorted _ hpw
  have hdivz : s.zero_index / s.width = s.height - 1 := by
    rw [hzn]
    have h2 : s.height - 1 + 1 = s.height := by omega
    have h3 : s.width * ((s.height - 1) + 1) = s.width * (s.height - 1) + s.width := by ring
    have h4 : s.width * s.height = s.width * (s.height - 1) + s.width := by
      calc s.width * s.height = s.width * ((s.height - 1) + 1) := by rw [h2]
        _ = s.width * (s.height - 1) + s.width := h3
    have e1 : s.width * s.height - 1 = s.width * (s.height - 1) + (s.width - 1) := by omega
    have hrw : s.width - 1 < s.width := by omega
    rw [e1, Nat.mul_add_div hw, Nat.div_eq_of_lt hrw]
    omega
  rw [is_solvable_eq s]
  by_cases hwodd : s.width % 2 = 1
  · rw [if_pos hwodd, hinv]
    decide
  · rw [if_neg hwodd, hinv, hdivz]
    simp

/-- C7: for every well-formed board on which the solvability pre-check
`is_solvable` returns `false`, `solve` immediately returns the unsolvable
marker (Python's `None`) without constructing or expanding any successor
state — the instrumented run `solveT` records no pop, counts zero
expansions and leaves the closed dict empty; and unsolvability is the
only failure result `solve` ever reports: whenever `solve` returns the
unsolvable marker (from the pre-check or from exhausting the open list),
no move sequence applied to the initial board reaches the solved
configuration. -/
theorem unsolvable_only_failure :
    (∀ puz fuel, WellFormed puz → (initState puz).is_solvable = false →
      solve puz fuel = some SolveResult.unsolvable ∧
      solveT puz fuel = (some SolveResult.unsolvable, [], 0, [])) ∧
    (∀ puz fuel, WellFormed puz → solve puz fuel = some SolveResult.unsolvable →
      ∀ trail, (applyMoves (initState puz) trail).map State.isSolved ≠ some true) := by
  constructor
  · intro puz fuel hwf hns
    have hns' : ¬ (initState puz).is_solvable = true := by
      rw [hns]
      simp
    have hsolve : solve puz fuel = if (initState puz).is_solvable then
        searchLoop fuel [initState puz] [] else some SolveResult.unsolvable := rfl
    have hsolveT : solveT puz fuel = if (initState puz).is_solvable then
        searchLoopT fuel [initState puz] [] [] 0
      else (some SolveResult.unsolvable, [], 0, []) := rfl
    constructor
    · rw [hsolve, if_neg hns']
    · rw [hsolveT, if_neg hns']
  · intro puz fuel hwf hres trail hcontra
    cases happ : applyMoves (initState puz) trail with
    | none => rw [happ] at hcontra; exact absurd hcontra (by simp)
    | some s_end =>
      rw [happ] at hcontra
      have hsolved : s_end.isSolved = true := by simpa using hcontra
      have hginit := initState_good puz hwf
      obtain ⟨hgE, hblE, hwE, hhE, hsvE, hbE⟩ :=
        applyMoves_props trail (initState puz) s_end hginit happ
      have hsolve : solve puz fuel = if (initState puz).is_solvable then
          searchLoop fuel [initState puz] [] else some SolveResult.unsolvable := rfl
      rw [hsolve] at hres
      by_cases hs : (initState puz).is_solvable
      · rw [if_pos hs] at hres
        have hloop := searchLoop_unsolvable (initState puz).bit_length (initState puz).width
          (initState puz).height (initState puz).board fuel [initState puz] []
          (inv_init puz hwf) hres
        have hne := hloop trail s_end.board hbE
        obtain ⟨hwE2, hhE2, _, _, _, hpermE, _⟩ := hgE
        have hdecE : decodeBoard (initState puz).bit_length
            ((initState puz).width * (initState puz).height) s_end.board =
            solvedFlat ((initState puz).width * (initState puz).height) := by
          have h' : decide (decodeBoard s_end.bit_length (s_end.width * s_end.height)
              s_end.board = solvedFlat (s_end.width * s_end.height)) = true := hsolved
          have h2 := of_decide_eq_true h'
          rw [hblE, hwE, hhE] at h2
          exact h2
        have hpermE2 : (decodeBoard (initState puz).bit_length
            ((initState puz).width * (initState puz).height) s_end.board).Perm
            (List.range ((initState puz).width * (initState puz).height)) := by
          have hthis := hpermE
          rw [hblE, hwE, hhE] at hthis
          exact hthis
        have hw0 : 0 < (initState puz).width := by
          rw [← hwE]
          exact hwE2
        have hh0 : 0 < (initState puz).height := by
          rw [← hhE]
          exact hhE2
        have hzero := (heuristicValue_zero_iff (initState puz).bit_length
          (initState puz).width (initState puz).height s_end.board hw0 hh0 hpermE2).mpr hdecE
        exact hne hzero
      · rw [if_neg hs] at hres
        have hfalse : (initState puz).is_solvable = false := by
          revert hs
          cases (initState puz).is_solvable <;> simp
        have htrue := solved_is_solvable s_end hgE hsolved
        rw [hsvE, hfalse] at htrue
        exact absurd htrue (by simp)

/-- Witness for C7 at the unsolvable board `[[2,1],[3,0]]` (one transposed
pair, even width: the parity check fails). -/
theorem unsolvable_only_failure_witness :
    (WellFormed [[2,1],[3,0]] ∧ (initState [[2,1],[3,0]]).is_solvable = false ∧
      solve [[2,1],[3,0]] 5 = some SolveResult.unsolvable ∧
      solveT [[2,1],[3,0]] 5 = (some SolveResult.unsolvable, [], 0, [])) ∧
    (applyMoves (initState [[2,1],[3,0]]) ['L']).map State.isSolved ≠ some true := by
  refine ⟨⟨by decide, by decide, ?_, ?_⟩, ?_⟩
  · exact (unsolvable_only_failure.1 [[2,1],[3,0]] 5 (by decide) (by decide)).1
  · exact (unsolvable_only_failure.1 [[2,1],[3,0]] 5 (by decide) (by decide)).2
  · exact unsolvable_only_failure.2 [[2,1],[3,0]] 5 (by decide) (by decide) ['L']

/-! ## Concrete-run theorems for the claims backed by counterexamples -/

/-- C1: the claim states that for every solvable well-formed board the
sequence returned by `solve` has minimum length.  This fails on the
solvable well-formed board `[[0,2,1],[5,4,3]]`: `solve` returns a 15-move
solution, yet an explicit 13-move sequence already reaches the canonical
solved configuration, so the returned length exceeds the true shortest-path
distance. -/
theorem solve_not_minimal_on_board_021543 :
    WellFormed [[0,2,1],[5,4,3]] ∧
    (initState [[0,2,1],[5,4,3]]).is_solvable = true ∧
    solve [[0,2,1],[5,4,3]] 100 =
      some (.solution ['U','L','D','R','U','L','D','L','U','R','R','D','L','U','L']) ∧
    (['U','L','D','R','U','L','D','L','U','R','R','D','L','U','L'] : List Char).length = 15 ∧
    (applyMoves (initState [[0,2,1],[5,4,3]])
        ['L','U','R','D','L','L','U','R','R','D','L','U','L']).map State.isSolved = some true ∧
    (['L','U','R','D','L','L','U','R','R','D','L','U','L'] : List Char).length = 13 := by
  decide

/-- C2: the claim states the heuristic of a reachable state of a
well-formed board never exceeds the true number of remaining moves.  The
initial state of `[[1,2],[0,3]]` (reachable in zero moves) has heuristic
value `2` — the blank's Manhattan distance is included in the sum — while
the single move `'L'` already solves the board, so the true remaining
distance is `1 < 2`. -/
theorem heuristic_exceeds_distance_on_board_1203 :
    WellFormed [[1,2],[0,3]] ∧
    (initState [[1,2],[0,3]]).heuristic_value = 2 ∧
    (applyMoves (initState [[1,2],[0,3]]) ['L']).map State.isSolved = some true := by
  decide

/-- C8: on `[[1,2],[0,3]]` `solve` returns exactly one move, the label
`'L'` produced by `State.left`.  The blank sits at linear index 2 (row 1,
column 0) and `State.left` moves the tile at index 3 — the cell directly
to the right of the blank, in the same row — into the blank's position:
precisely the move the specification's direction convention calls `Right`
("the tile adjacent to the blank in that direction slides into the blank's
position").  The resulting board is the canonical solved order. -/
theorem solve_board_1203_single_move :
    solve [[1,2],[0,3]] 10 = some (.solution ['L']) ∧
    applyMove (initState [[1,2],[0,3]]) 'L' = (initState [[1,2],[0,3]]).left ∧
    (initState [[1,2],[0,3]]).zero_index = 2 ∧
    decodeBoard (initState [[1,2],[0,3]]).bit_length 4 (initState [[1,2],[0,3]]).board =
      [1, 2, 0, 3] ∧
    ((initState [[1,2],[0,3]]).left).map State.zero_index = some 3 ∧
    ((initState [[1,2],[0,3]]).left).map (fun s => decodeBoard s.bit_length 4 s.board) =
      some [1, 2, 3, 0] := by
  decide

/-- C5: the claim states that the conflict scan for a tile at `(i, j)`
whose goal row is `i` and goal column is right of `j` examines exactly
the cells of row `i` strictly right of column `j`, adding `2` per scanned
non-blank tile with goal row `i` and goal column at or before the scanned
position.  The code instead scans `range(i+1, j)` — column indices
between the row index plus one and the current column — and tests
`tile // width == i` and `tile % width <= j` instead of the goal
coordinates of the scanned tile.  On the well-formed solvable board
`[[2,5,1,4],[3,7,6,0]]`: the tile `2` at `(0,0)` and the tile `7` at
`(1,1)` both trigger the scan, the code's scan adds nothing at either
cell, while the scan the claim describes yields `4` and `2`. -/
theorem conflict_scan_differs_on_board_25143760 :
    WellFormed [[2,5,1,4],[3,7,6,0]] ∧
    (initState [[2,5,1,4],[3,7,6,0]]).is_solvable = true ∧
    (initState [[2,5,1,4],[3,7,6,0]]).bit_length = 3 ∧
    conflictScan 3 4 (initState [[2,5,1,4],[3,7,6,0]]).board 0 0 = 0 ∧
    specConflictScan 3 4 (initState [[2,5,1,4],[3,7,6,0]]).board 0 0 = 4 ∧
    conflictScan 3 4 (initState [[2,5,1,4],[3,7,6,0]]).board 1 1 = 0 ∧
    specConflictScan 3 4 (initState [[2,5,1,4],[3,7,6,0]]).board 1 1 = 2 := by
  decide

/-- C4: the claim states that a popped entry whose board is already in
`closed` is discarded without being re-recorded, so `closed` retains only
the first-settled entry per board.  Running the search on the well-formed
solvable board `[[4,0,5],[2,3,1]]`, the board value `119820` is popped
twice — first settled with back-link `(119876, 'L')`, later re-recorded
with `(21708, 'D')` — and the final closed dict retains the second entry,
not the first-settled one. -/
theorem closed_not_first_settled_on_board_405231 :
    WellFormed [[4,0,5],[2,3,1]] ∧
    ((solveT [[4,0,5],[2,3,1]] 100).2.1.filter (fun e => e.1 == 119820)) =
      [(119820, some (119876, 'L')), (119820, some (21708, 'D'))] ∧
    dictGet? (solveT [[4,0,5],[2,3,1]] 100).2.2.2 119820 = some (some (21708, 'D')) := by
  decide

end TilePuzzle
